import Mathlib

/-!
# Verification of the research-agent callbacks in `app/agent.py`

This file gives a shallow embedding of the three locally-authored pieces of
logic of the repository:

* `collect_research_sources_callback` (source lines 68-116): scans session
  events for grounding metadata, deduplicates cited URLs into short
  identifiers `src-<n>`, and appends confidence-scored claim excerpts to the
  per-source records;
* `citation_replacement_callback` (source lines 118-131): rewrites inline
  `<cite source="src-N"/>` markers into Markdown links and collapses
  whitespace before punctuation;
* `EscalationChecker._run_async_impl` (source lines 134-144): reads the
  `research_evaluation` state slot and emits a single event, escalating
  exactly when the verdict's grade is `"pass"`.

Embedding conventions:

* Python dicts are modelled as association lists in insertion order with
  unique keys; `alookup` is `d[k]`/`d.get(k)` (first match), `aupd` is
  `d[k] = v` (update in place, else append at the end), which agrees with
  CPython dict semantics.
* Python `None` becomes `Option.none`.  Optional lists whose only use is
  iteration guarded by truthiness (`grounding_supports`,
  `confidence_scores or []`, `grounding_chunk_indices or []`) are read with
  `Option.getD []`, which is equivalent because both `None` and `[]` are
  falsy and iterate to nothing.
* The one genuinely fallible operation,
  `sources[short_id]["supported_claims"].append(...)` (a `KeyError` when the
  short id is absent, reachable only from session states that violate the
  index/registry correspondence), is modelled with `Option`; the whole
  collector therefore returns `Option SessionState`.
* Confidence scores are Python floats used only as opaque stored values
  (never computed with), so they are embedded as rationals; `0.5` is `1/2`.
* String formatting `f"src-{id_counter}"` is embedded as `"src-"` followed
  by the standard decimal rendering of the counter (`natDigitsF`, a
  fuel-based structural implementation of base-10 printing).
* Logging: `logging.warning` calls of the citation rewriter are modelled by
  an explicit list of emitted warning messages; `logging.info` calls of the
  escalation checker carry no claim-relevant content and are dropped.
-/

set_option maxHeartbeats 1000000

namespace Agent

/-! ## Association-list model of Python dicts -/

/-- First-match lookup, i.e. `d[k]` / `d.get(k)` on a Python dict. -/
def alookup {κ α : Type} [DecidableEq κ] (k : κ) : List (κ × α) → Option α
  | [] => none
  | p :: m => if p.1 = k then some p.2 else alookup k m

/-- Python dict assignment `d[k] = v`: update in place if the key exists,
otherwise append at the end (insertion order is preserved). -/
def aupd {κ α : Type} [DecidableEq κ] (k : κ) (v : α) : List (κ × α) → List (κ × α)
  | [] => [(k, v)]
  | p :: m => if p.1 = k then (k, v) :: m else p :: aupd k v m

/-! ## Decimal rendering of the id counter -/

/-- One decimal digit character. -/
def digitCh (n : Nat) : Char :=
  if n = 0 then '0' else if n = 1 then '1' else if n = 2 then '2'
  else if n = 3 then '3' else if n = 4 then '4' else if n = 5 then '5'
  else if n = 6 then '6' else if n = 7 then '7' else if n = 8 then '8' else '9'

/-- Fuel-based base-10 rendering (most significant digit first).  With fuel
`n + 1` this is the standard decimal numeral of `n`. -/
def natDigitsF : Nat → Nat → List Char
  | 0, _ => []
  | f + 1, n => if n < 10 then [digitCh n] else natDigitsF f (n / 10) ++ [digitCh (n % 10)]

/-- Wait-free decimal numeral of `n` (fuel `n + 1` always suffices). -/
def natStr (n : Nat) : List Char := natDigitsF (n + 1) n

/-- The short identifier `f"src-{n}"` of the source. -/
def shortIdOf (n : Nat) : String := String.mk ([ 's', 'r', 'c', '-' ] ++ natStr n)

/-! ## Data model: grounding metadata attached to events -/

/-- `chunk.web`: a web reference with `uri`, `title` and `domain`.  The genai
types allow each field to be `None`; the claims under verification only
exercise string-valued fields, which is what is embedded. -/
structure WebInfo where
  uri : String
  title : String
  domain : String
deriving DecidableEq

/-- One grounding chunk; `web` is `None` for non-web chunks. -/
structure Chunk where
  web : Option WebInfo
deriving DecidableEq

/-- `support.segment`. -/
structure Segment where
  text : String
deriving DecidableEq

/-- One grounding-support annotation. -/
structure Support where
  confidence_scores : Option (List ℚ)
  grounding_chunk_indices : Option (List Nat)
  segment : Option Segment
deriving DecidableEq

/-- `event.grounding_metadata`.  `grounding_chunks` is a plain list: the
source guards it with truthiness, so `None` and `[]` behave identically and
both are embedded as `[]`.  `grounding_supports` keeps its `Option`. -/
structure GroundingMetadata where
  grounding_chunks : List Chunk
  grounding_supports : Option (List Support)
deriving DecidableEq

/-- A session event; only grounding metadata is read by the collector. -/
structure Event where
  grounding_metadata : Option GroundingMetadata
deriving DecidableEq

/-- One entry of a record's `supported_claims` list. -/
structure SupportedClaim where
  text_segment : String
  confidence : ℚ
deriving DecidableEq

/-- One record of the `sources` registry. -/
structure SourceRecord where
  short_id : String
  title : String
  url : String
  domain : String
  supported_claims : List SupportedClaim
deriving DecidableEq

/-- The structured output model `Feedback` (grade is `"pass"` or `"fail"`).
The `research_evaluation` slot holds such a record when present. -/
structure Feedback where
  grade : String
  comment : String
  follow_up_queries : Option (List String)
deriving DecidableEq

/-- The session-state slots the three components read and write.  A missing
slot and its `state.get(key, default)` default are identified. -/
structure SessionState where
  url_to_short_id : List (String × String)
  sources : List (String × SourceRecord)
  research_evaluation : Option Feedback
  final_cited_report : String
  final_report_with_citations : Option String
deriving DecidableEq

/-- The empty session state (all slots at their defaults). -/
def emptyState : SessionState :=
  { url_to_short_id := [], sources := [], research_evaluation := none,
    final_cited_report := "", final_report_with_citations := none }

/-! ## Source collector (`collect_research_sources_callback`, lines 68-116) -/

/-- The collector's working data: the two dict slots plus the local
`id_counter` (initialised to `len(url_to_short_id) + 1`). -/
structure RunState where
  url_to_short_id : List (String × String)
  sources : List (String × SourceRecord)
  id_counter : Nat
deriving DecidableEq

/-- Lines 77-97, one chunk of the `enumerate` loop.  The source writes
`if url not in url_to_short_id: ...insert...` followed by an unconditional
`chunks_info[idx] = url_to_short_id[url]`; this is embedded as a single
match on the lookup (in the insert branch the looked-up value is the short
id that was just inserted, so the two formulations agree).  The `title`
computation copies the source's conditional verbatim (its two branches are
extensionally equal). -/
def chunkStep (rs : RunState) (info : List (Nat × String)) (idx : Nat) (c : Chunk) :
    RunState × List (Nat × String) :=
  match c.web with
  | none => (rs, info)
  | some w =>
    let title := if w.title ≠ w.domain then w.title else w.domain
    match alookup w.uri rs.url_to_short_id with
    | some sid => (rs, aupd idx sid info)
    | none =>
      let sid := shortIdOf rs.id_counter
      ({ url_to_short_id := rs.url_to_short_id ++ [(w.uri, sid)],
         sources := aupd sid
           { short_id := sid, title := title, url := w.uri, domain := w.domain,
             supported_claims := [] } rs.sources,
         id_counter := rs.id_counter + 1 },
       aupd idx sid info)

/-- The `for idx, chunk in enumerate(...)` loop building `chunks_info`. -/
def chunkFoldAux (rs : RunState) (info : List (Nat × String)) (idx : Nat) :
    List Chunk → RunState × List (Nat × String)
  | [] => (rs, info)
  | c :: cs =>
    let ri := chunkStep rs info idx c
    chunkFoldAux ri.1 ri.2 (idx + 1) cs

/-- Lines 76-97: process all chunks of one event, starting from the fresh
(empty) per-event `chunks_info` dict. -/
def chunkFold (rs : RunState) (chunks : List Chunk) : RunState × List (Nat × String) :=
  chunkFoldAux rs [] 0 chunks

/-- `support.segment.text if support.segment else ""`. -/
def segText (sup : Support) : String :=
  match sup.segment with
  | some s => s.text
  | none => ""

/-- Line 106: `confidence_scores[i] if i < len(confidence_scores) else 0.5`
for position `i` of the chunk-index list. -/
def confOf (sup : Support) (i : Nat) : ℚ :=
  let scores := sup.confidence_scores.getD []
  if i < scores.length then scores.getD i 0 else 1 / 2

/-- The claim dict appended at position `i` (lines 108-114). -/
def supClaimEntry (sup : Support) (i : Nat) : SupportedClaim :=
  { text_segment := segText sup, confidence := confOf sup i }

/-- `sources[short_id]["supported_claims"].append(claim)`: update the record
in place; a missing key is a Python `KeyError`, embedded as `none`. -/
def appendClaim (sid : String) (cl : SupportedClaim) :
    List (String × SourceRecord) → Option (List (String × SourceRecord))
  | [] => none
  | q :: src =>
    if q.1 = sid then
      some ((q.1, { q.2 with supported_claims := q.2.supported_claims ++ [cl] }) :: src)
    else
      (appendClaim sid cl src).map (q :: ·)

/-- Lines 102-114: the `for i, chunk_idx in enumerate(chunk_indices)` loop.
Indices absent from `chunks_info` are skipped. -/
def supIdxFold (info : List (Nat × String)) (sup : Support) :
    Nat → List Nat → List (String × SourceRecord) → Option (List (String × SourceRecord))
  | _, [], src => some src
  | i, ci :: rest, src =>
    match alookup ci info with
    | none => supIdxFold info sup (i + 1) rest src
    | some sid =>
      match appendClaim sid (supClaimEntry sup i) src with
      | none => none
      | some src' => supIdxFold info sup (i + 1) rest src'

/-- Lines 99-114: process one grounding support. -/
def supportStep (info : List (Nat × String)) (src : List (String × SourceRecord))
    (sup : Support) : Option (List (String × SourceRecord)) :=
  supIdxFold info sup 0 (sup.grounding_chunk_indices.getD []) src

/-- Lines 98-114: the loop over `grounding_supports`. -/
def supportsFold (info : List (Nat × String)) :
    List (String × SourceRecord) → List Support → Option (List (String × SourceRecord))
  | src, [] => some src
  | src, sup :: sups =>
    match supportStep info src sup with
    | none => none
    | some src' => supportsFold info src' sups

/-- Lines 73-114: process one session event.  An event without grounding
metadata or without grounding chunks is skipped wholesale (`continue`). -/
def processEvent (rs : RunState) (ev : Event) : Option RunState :=
  match ev.grounding_metadata with
  | none => some rs
  | some gm =>
    if gm.grounding_chunks = [] then some rs
    else
      let ri := chunkFold rs gm.grounding_chunks
      match supportsFold ri.2 ri.1.sources (gm.grounding_supports.getD []) with
      | none => none
      | some src' => some { ri.1 with sources := src' }

/-- The `for event in session.events` loop. -/
def eventsFold : RunState → List Event → Option RunState
  | rs, [] => some rs
  | rs, ev :: evs =>
    match processEvent rs ev with
    | none => none
    | some rs' => eventsFold rs' evs

/-- Lines 68-116, `collect_research_sources_callback`: read the two slots
(with `{}` defaults), set `id_counter = len(url_to_short_id) + 1`, process
every session event, and write the two slots back. -/
def collect_research_sources_callback (st : SessionState) (events : List Event) :
    Option SessionState :=
  match eventsFold
      { url_to_short_id := st.url_to_short_id, sources := st.sources,
        id_counter := st.url_to_short_id.length + 1 } events with
  | none => none
  | some rs => some { st with url_to_short_id := rs.url_to_short_id, sources := rs.sources }

/-! ## Citation rewriter (`citation_replacement_callback`, lines 118-131) -/

/-- The whitespace class of Python's `\s` (ASCII part; the verified inputs
are ASCII). -/
def isPySpace (c : Char) : Bool :=
  c = ' ' || c = '\t' || c = '\n' || c = '\r' || c = Char.ofNat 11 || c = Char.ofNat 12

/-- Decimal digit test, `\d`. -/
def isDigitCh (c : Char) : Bool :=
  '0' ≤ c && c ≤ '9'

/-- Match a literal character sequence and return the remaining input. -/
def stripLit : List Char → List Char → Option (List Char)
  | [], cs => some cs
  | _ :: _, [] => none
  | l :: ls, c :: cs => if c = l then stripLit ls cs else none

/-- `\s+` followed by the rest: require at least one whitespace character,
then drop the whole maximal run. -/
def reqSpace : List Char → Option (List Char)
  | [] => none
  | c :: cs => if isPySpace c then some (cs.dropWhile isPySpace) else none

/-- `["\']?`: consume one optional single or double quote. -/
def optQuote : List Char → List Char
  | [] => []
  | c :: cs => if c = Char.ofNat 34 || c = Char.ofNat 39 then cs else c :: cs

/-- `\d+`: at least one digit, maximal munch. -/
def takeDigits1 (cs : List Char) : Option (List Char × List Char) :=
  let ds := cs.takeWhile isDigitCh
  if ds = [] then none else some (ds, cs.dropWhile isDigitCh)

/-- Match the citation-marker regex
`<cite\s+source\s*=\s*["\']?\s*(src-\d+)\s*["\']?\s*/>` at the head of the
input, returning the captured group `src-<digits>` and the input after the
match.  Greedy matching of this pattern never needs backtracking (no
whitespace, quote or `/>` character is a digit and vice versa), so the
left-to-right maximal-munch reading below coincides with Python `re`. -/
def matchCite (cs : List Char) : Option (String × List Char) :=
  (stripLit ("<cite".toList) cs).bind fun cs1 =>
  (reqSpace cs1).bind fun cs2 =>
  (stripLit ("source".toList) cs2).bind fun cs3 =>
  (matchEqCh (cs3.dropWhile isPySpace)).bind fun cs4 =>
  (stripLit ("src-".toList) ((optQuote (cs4.dropWhile isPySpace)).dropWhile isPySpace)).bind
  fun cs5 =>
  (takeDigits1 cs5).bind fun p =>
  (stripLit ("/>".toList) ((optQuote (p.2.dropWhile isPySpace)).dropWhile isPySpace)).map
  fun rest => (String.mk (("src-".toList) ++ p.1), rest)
where
  /-- Match a literal `=`. -/
  matchEqCh : List Char → Option (List Char)
    | [] => none
    | c :: cs => if c = '=' then some cs else none

/-- The replacement ` [title](url)` produced by `tag_replacer` for a
resolvable marker.  The record dicts built by the collector always carry a
`"title"` key, so `source_info.get("title", source_info.get("domain",
short_id))` is the record's title. -/
def tagReplacement (rec : SourceRecord) : List Char :=
  (" [" ++ rec.title ++ "](" ++ rec.url ++ ")").toList

/-- The warning message logged for an unresolvable marker (its argument is
the full matched tag, `match.group(0)`). -/
def warnMsg (matched : List Char) : String :=
  "Invalid citation tag found and removed: " ++ String.mk matched

/-- `re.sub` scan for the citation pattern, fuel-based (each step consumes at
least one character, so fuel `cs.length` suffices; see `citeGoF_fuel`).
Returns the rewritten text and the list of logged warnings. -/
def citeGoF (sources : List (String × SourceRecord)) : Nat → List Char → List Char × List String
  | 0, _ => ([], [])
  | _ + 1, [] => ([], [])
  | fuel + 1, c :: cs =>
    match matchCite (c :: cs) with
    | some (sid, rest) =>
      let out := citeGoF sources fuel rest
      match alookup sid sources with
      | none => (out.1, warnMsg ((c :: cs).take ((c :: cs).length - rest.length)) :: out.2)
      | some rec => (tagReplacement rec ++ out.1, out.2)
    | none =>
      let out := citeGoF sources fuel cs
      (c :: out.1, out.2)

/-- Line 128: `re.sub(cite_pattern, tag_replacer, final_report)` together
with the warnings logged by `tag_replacer`. -/
def citeGo (sources : List (String × SourceRecord)) (cs : List Char) :
    List Char × List String :=
  citeGoF sources cs.length cs

/-- The punctuation class of the cleanup pattern `\s+([.,;:])`. -/
def isPunct (c : Char) : Bool :=
  c = '.' || c = ',' || c = ';' || c = ':'

/-- Line 129: `re.sub(r"\s+([.,;:])", r"\1", s)`.  `pend` is the (reversed)
currently open whitespace run; a run immediately followed by punctuation is
dropped, any other run is emitted unchanged.  Within a whitespace run every
later starting position sees the same following character, so this single
forward scan coincides with the regex engine's leftmost-match loop. -/
def punctGo (pend : List Char) : List Char → List Char
  | [] => pend.reverse
  | c :: cs =>
    if isPySpace c then punctGo (c :: pend) cs
    else if isPunct c && !pend.isEmpty then c :: punctGo [] cs
    else pend.reverse ++ c :: punctGo [] cs

/-- A text part of the returned `genai_types.Content`. -/
structure Part where
  text : String
deriving DecidableEq

/-- The returned `genai_types.Content`. -/
structure Content where
  parts : List Part
deriving DecidableEq

/-- Lines 118-131, `citation_replacement_callback`: rewrite the markers of
`final_cited_report`, collapse whitespace before punctuation, store the
result in `final_report_with_citations` and return it as a single text
part.  The second and third components are the returned content and the
logged warnings. -/
def citation_replacement_callback (st : SessionState) :
    SessionState × Content × List String :=
  let sources := st.sources
  let sub1 := citeGo sources st.final_cited_report.toList
  let processed := String.mk (punctGo [] sub1.1)
  ({ st with final_report_with_citations := some processed },
   { parts := [{ text := processed }] },
   sub1.2)

/-! ## Escalation checker (`EscalationChecker`, lines 134-144) -/

/-- `EventActions(escalate=True)`; the default-constructed actions carry no
escalate flag, embedded as `false`. -/
structure EventActionsM where
  escalate : Bool
deriving DecidableEq

/-- An emitted ADK event (the fields this agent sets). -/
structure EventM where
  author : String
  actions : EventActionsM
deriving DecidableEq

/-- Lines 137-144, `EscalationChecker._run_async_impl`: read
`research_evaluation`; if it holds a verdict whose grade is `"pass"`, yield
one event with `escalate=True`, otherwise yield one plain event.  A present
verdict record is a non-empty dict, hence truthy, so
`evaluation_result and evaluation_result.get("grade") == "pass"` is exactly
the match below.  The source contains no write to the session state; the
returned state is the input state. -/
def escalationChecker_run (name : String) (st : SessionState) :
    SessionState × List EventM :=
  match st.research_evaluation with
  | some fb =>
    if fb.grade = "pass" then (st, [{ author := name, actions := { escalate := true } }])
    else (st, [{ author := name, actions := { escalate := false } }])
  | none => (st, [{ author := name, actions := { escalate := false } }])

/-! ## Basic lemmas about the dict model -/

theorem alookup_append_some {κ α : Type} [DecidableEq κ] {k : κ} {v : α}
    {m rest : List (κ × α)} (h : alookup k m = some v) :
    alookup k (m ++ rest) = some v := by
  induction m with
  | nil => simp [alookup] at h
  | cons p m ih =>
    by_cases he : p.1 = k
    · simp only [alookup, if_pos he] at h
      simpa [alookup, if_pos he] using h
    · simp only [alookup, if_neg he] at h
      simpa [alookup, if_neg he] using ih h

theorem alookup_append_none {κ α : Type} [DecidableEq κ] {k : κ}
    {m rest : List (κ × α)} (h : alookup k m = none) :
    alookup k (m ++ rest) = alookup k rest := by
  induction m with
  | nil => simp
  | cons p m ih =>
    by_cases he : p.1 = k
    · simp [alookup, if_pos he] at h
    · simp only [alookup, if_neg he] at h
      simpa [alookup, if_neg he] using ih h

theorem alookup_eq_none_iff {κ α : Type} [DecidableEq κ] {k : κ} {m : List (κ × α)} :
    alookup k m = none ↔ k ∉ m.map Prod.fst := by
  induction m with
  | nil => simp [alookup]
  | cons p m ih =>
    by_cases he : p.1 = k
    · constructor
      · intro h
        simp [alookup, if_pos he] at h
      · intro h
        exact absurd (by simp [← he]) h
    · simp only [alookup, if_neg he, List.map_cons, List.mem_cons, ih]
      constructor
      · rintro h (h1 | h2)
        · exact he h1.symm
        · exact h h2
      · intro h h2
        exact h (Or.inr h2)

theorem alookup_isSome_iff {κ α : Type} [DecidableEq κ] {k : κ} {m : List (κ × α)} :
    (alookup k m).isSome ↔ k ∈ m.map Prod.fst := by
  constructor
  · intro h
    by_contra hmem
    rw [alookup_eq_none_iff.mpr hmem] at h
    simp at h
  · intro h
    cases hl : alookup k m with
    | some v => rfl
    | none => exact absurd h (alookup_eq_none_iff.mp hl)

theorem alookup_mem {κ α : Type} [DecidableEq κ] {k : κ} {v : α} {m : List (κ × α)}
    (h : alookup k m = some v) : (k, v) ∈ m := by
  induction m with
  | nil => simp [alookup] at h
  | cons p m ih =>
    by_cases he : p.1 = k
    · simp only [alookup, if_pos he] at h
      obtain rfl : p.2 = v := by simpa using h
      have hp : (k, p.2) = p := by
        rw [← he]
      rw [hp]
      exact List.mem_cons_self p m
    · simp only [alookup, if_neg he] at h
      exact List.mem_cons_of_mem _ (ih h)

theorem alookup_val_mem {κ α : Type} [DecidableEq κ] {k : κ} {v : α} {m : List (κ × α)}
    (h : alookup k m = some v) : v ∈ m.map Prod.snd :=
  List.mem_map.mpr ⟨(k, v), alookup_mem h, rfl⟩

theorem aupd_not_mem {κ α : Type} [DecidableEq κ] {k : κ} {v : α} {m : List (κ × α)}
    (h : k ∉ m.map Prod.fst) : aupd k v m = m ++ [(k, v)] := by
  induction m with
  | nil => simp [aupd]
  | cons p m ih =>
    simp only [List.map_cons, List.mem_cons] at h
    push_neg at h
    simp only [aupd, List.cons_append]
    rw [if_neg (fun he => h.1 he.symm), ih h.2]

theorem alookup_snoc_self {κ α : Type} [DecidableEq κ] {k : κ} {v : α} {m : List (κ × α)}
    (h : alookup k m = none) : alookup k (m ++ [(k, v)]) = some v := by
  rw [alookup_append_none h]
  simp [alookup]

/-! ## Decimal rendering: `shortIdOf` is injective -/

/-- The numeric value of one digit character. -/
def digitVal (c : Char) : Nat := c.toNat - 48

/-- The numeric value of a digit string (base 10, most significant first). -/
def natVal (cs : List Char) : Nat := cs.foldl (fun a c => a * 10 + digitVal c) 0

theorem digitVal_digitCh : ∀ n : Nat, n < 10 → digitVal (digitCh n) = n := by decide

theorem natVal_snoc (cs : List Char) (c : Char) :
    natVal (cs ++ [c]) = natVal cs * 10 + digitVal c := by
  simp [natVal, List.foldl_append]

theorem natVal_natDigitsF : ∀ f n : Nat, n < f → natVal (natDigitsF f n) = n := by
  intro f
  induction f with
  | zero => omega
  | succ f ih =>
    intro n hn
    by_cases h10 : n < 10
    · simp only [natDigitsF, if_pos h10]
      simpa [natVal] using digitVal_digitCh n h10
    · simp only [natDigitsF, if_neg h10]
      rw [natVal_snoc]
      have hdiv : n / 10 < f := by
        have h1 : n / 10 < n := Nat.div_lt_self (by omega) (by omega)
        omega
      rw [ih _ hdiv, digitVal_digitCh _ (Nat.mod_lt _ (by omega))]
      omega

theorem natStr_inj {m n : Nat} (h : natStr m = natStr n) : m = n := by
  have hm := natVal_natDigitsF (m + 1) m (by omega)
  have hn := natVal_natDigitsF (n + 1) n (by omega)
  rw [natStr, natStr] at h
  rw [← hm, ← hn, h]

theorem shortIdOf_inj : Function.Injective shortIdOf := by
  intro m n h
  have hd := congrArg String.data h
  simp only [shortIdOf] at hd
  exact natStr_inj (List.append_cancel_left hd)

/-! ## Specification-side definitions

The following definitions are not translations of the source; they are the
vocabulary in which the behaviour of `collect_research_sources_callback` is
characterised, and the characterisation itself is proved below. -/

/-- Concatenation of the images of `f` (insertion order preserved). -/
def concatMap {α β : Type} (f : α → List β) : List α → List β
  | [] => []
  | a :: as => f a ++ concatMap f as

/-- The URLs of the web-bearing chunks, in chunk order. -/
def chunkUrls : List Chunk → List String
  | [] => []
  | c :: cs =>
    match c.web with
    | none => chunkUrls cs
    | some w => w.uri :: chunkUrls cs

/-- The URLs an event contributes (empty for skipped events). -/
def eventUrls (ev : Event) : List String :=
  match ev.grounding_metadata with
  | none => []
  | some gm => if gm.grounding_chunks = [] then [] else chunkUrls gm.grounding_chunks

/-- Number of occurrences of `u`. -/
def countOcc {α : Type} [DecidableEq α] (u : α) : List α → Nat
  | [] => 0
  | v :: vs => if v = u then countOcc u vs + 1 else countOcc u vs

/-- Deduplication keeping first occurrences, relative to an already-seen set. -/
def dedupFirstAux (seen : List String) : List String → List String
  | [] => []
  | u :: us => if u ∈ seen then dedupFirstAux seen us else u :: dedupFirstAux (u :: seen) us

/-- The distinct URLs of a run of events, in first-seen order. -/
def firstSeenUrls (events : List Event) : List String :=
  dedupFirstAux [] (concatMap eventUrls events)

/-- Pair consecutive short identifiers `src-k, src-(k+1), ...` with URLs. -/
def withIdsFrom (k : Nat) : List String → List (String × String)
  | [] => []
  | u :: us => (u, shortIdOf k) :: withIdsFrom (k + 1) us

/-- The url-to-short-id map after assigning all of `urls` in order: an
already-present URL is kept, a new one is appended with the next id. -/
def assignAll (m : List (String × String)) : List String → List (String × String)
  | [] => m
  | u :: us =>
    if (alookup u m).isSome then assignAll m us
    else assignAll (m ++ [(u, shortIdOf (m.length + 1))]) us

/-- The per-event chunk-index map, resolved through a fixed url map `m`. -/
def infoViaAux (m : List (String × String)) (idx : Nat) : List Chunk → List (Nat × String)
  | [] => []
  | c :: cs =>
    match c.web with
    | none => infoViaAux m (idx + 1) cs
    | some w =>
      match alookup w.uri m with
      | none => infoViaAux m (idx + 1) cs
      | some sid => (idx, sid) :: infoViaAux m (idx + 1) cs

/-- The `(short_id, claim)` pairs one support annotation produces, positions
counted from `i`; unresolvable chunk indices produce nothing. -/
def claimsOfSupportAux (info : List (Nat × String)) (sup : Support) (i : Nat) :
    List Nat → List (String × SupportedClaim)
  | [] => []
  | ci :: rest =>
    match alookup ci info with
    | none => claimsOfSupportAux info sup (i + 1) rest
    | some sid => (sid, supClaimEntry sup i) :: claimsOfSupportAux info sup (i + 1) rest

/-- The `(short_id, claim)` pairs one support annotation produces. -/
def claimsOfSupport (info : List (Nat × String)) (sup : Support) :
    List (String × SupportedClaim) :=
  claimsOfSupportAux info sup 0 (sup.grounding_chunk_indices.getD [])

/-- Total version of `appendClaim`: append the claim to the record at `sid`,
leave the registry unchanged if the key is absent. -/
def appendPure (sid : String) (cl : SupportedClaim) :
    List (String × SourceRecord) → List (String × SourceRecord)
  | [] => []
  | q :: src =>
    if q.1 = sid then
      (q.1, { q.2 with supported_claims := q.2.supported_claims ++ [cl] }) :: src
    else q :: appendPure sid cl src

/-- Apply a list of `(short_id, claim)` appends in order. -/
def appendClaimsList :
    List (String × SourceRecord) → List (String × SupportedClaim) → List (String × SourceRecord)
  | src, [] => src
  | src, e :: rest => appendClaimsList (appendPure e.1 e.2 src) rest

/-- The claims destined for record `sid`, in order. -/
def claimsFor (sid : String) : List (String × SupportedClaim) → List SupportedClaim
  | [] => []
  | e :: rest => if e.1 = sid then e.2 :: claimsFor sid rest else claimsFor sid rest

/-- All `(short_id, claim)` pairs one event produces, resolving chunk indices
through the fixed url map `m` (skipped events produce nothing). -/
def eventClaims (m : List (String × String)) (ev : Event) : List (String × SupportedClaim) :=
  match ev.grounding_metadata with
  | none => []
  | some gm =>
    if gm.grounding_chunks = [] then []
    else concatMap (claimsOfSupport (infoViaAux m 0 gm.grounding_chunks))
      (gm.grounding_supports.getD [])

/-- The canonical shape of the collector's working state: the counter is one
past the index size, the index values are exactly `src-1 .. src-n` in order
and coincide with the registry keys, the registry records' URLs are exactly
the index keys in order, and the index keys are distinct.  The empty state
has this shape and the collector preserves it. -/
def RunInv (rs : RunState) : Prop :=
  rs.id_counter = rs.url_to_short_id.length + 1 ∧
  rs.url_to_short_id.map Prod.snd = rs.sources.map Prod.fst ∧
  rs.sources.map (fun q => q.2.url) = rs.url_to_short_id.map Prod.fst ∧
  (rs.url_to_short_id.map Prod.fst).Nodup ∧
  rs.url_to_short_id.map Prod.snd
    = (List.range rs.url_to_short_id.length).map (fun i => shortIdOf (i + 1))

/-- Canonical shape of a session state's two collector slots. -/
def InvState (st : SessionState) : Prop :=
  RunInv { url_to_short_id := st.url_to_short_id, sources := st.sources,
           id_counter := st.url_to_short_id.length + 1 }

/-- Mutual consistency of the index and the registry in the sense of the
specification: every URL maps to a registry key, and every registry key is
the short identifier of exactly one URL. -/
def ConsistentState (u2s : List (String × String)) (sources : List (String × SourceRecord)) :
    Prop :=
  (∀ p ∈ u2s, p.2 ∈ sources.map Prod.fst) ∧
  (∀ q ∈ sources, ∃! url, alookup url u2s = some q.1)

/-! ## The support phase appends exactly the claims of `claimsOfSupport` -/

theorem appendPure_map_fst (sid : String) (cl : SupportedClaim)
    (src : List (String × SourceRecord)) :
    (appendPure sid cl src).map Prod.fst = src.map Prod.fst := by
  induction src with
  | nil => rfl
  | cons q src ih =>
    by_cases hq : q.1 = sid
    · simp [appendPure, if_pos hq, hq]
    · simp [appendPure, if_neg hq, ih]

theorem appendPure_map_url (sid : String) (cl : SupportedClaim)
    (src : List (String × SourceRecord)) :
    (appendPure sid cl src).map (fun q => q.2.url) = src.map (fun q => q.2.url) := by
  induction src with
  | nil => rfl
  | cons q src ih =>
    by_cases hq : q.1 = sid
    · simp [appendPure, if_pos hq]
    · simp [appendPure, if_neg hq, ih]

theorem alookup_appendPure (k sid : String) (cl : SupportedClaim)
    (src : List (String × SourceRecord)) :
    alookup k (appendPure sid cl src)
      = if k = sid then
          (alookup k src).map
            (fun rec => { rec with supported_claims := rec.supported_claims ++ [cl] })
        else alookup k src := by
  induction src with
  | nil =>
    by_cases hk : k = sid <;> simp [appendPure, alookup, hk]
  | cons q src ih =>
    by_cases hq : q.1 = sid
    · simp only [appendPure, if_pos hq, alookup]
      by_cases hk : q.1 = k
      · have hks : k = sid := by rw [← hk, hq]
        rw [if_pos hk, if_pos hks, if_pos hk]
        rfl
      · have hks : ¬k = sid := fun h => hk (by rw [hq, ← h])
        rw [if_neg hk, if_neg hks, if_neg hk]
    · simp only [appendPure, if_neg hq, alookup]
      by_cases hk : q.1 = k
      · have hks : ¬k = sid := fun h => hq (by rw [hk, h])
        rw [if_pos hk, if_neg hks, if_pos hk]
      · rw [if_neg hk, if_neg hk, ih]

theorem appendClaim_eq_appendPure (sid : String) (cl : SupportedClaim) :
    ∀ src : List (String × SourceRecord), sid ∈ src.map Prod.fst →
      appendClaim sid cl src = some (appendPure sid cl src) := by
  intro src
  induction src with
  | nil => intro h; simp at h
  | cons q src ih =>
    intro h
    by_cases hq : q.1 = sid
    · simp [appendClaim, appendPure, if_pos hq]
    · have hmem : sid ∈ src.map Prod.fst := by
        simp only [List.map_cons, List.mem_cons] at h
        rcases h with h1 | h2
        · exact absurd h1.symm hq
        · exact h2
      simp [appendClaim, appendPure, if_neg hq, ih hmem]

theorem claimsFor_append (sid : String) (a b : List (String × SupportedClaim)) :
    claimsFor sid (a ++ b) = claimsFor sid a ++ claimsFor sid b := by
  induction a with
  | nil => rfl
  | cons e a ih =>
    by_cases he : e.1 = sid
    · simp [claimsFor, if_pos he, ih]
    · simp [claimsFor, if_neg he, ih]

theorem claimsFor_eq_nil {sid : String} {l : List (String × SupportedClaim)}
    (h : sid ∉ l.map Prod.fst) : claimsFor sid l = [] := by
  induction l with
  | nil => rfl
  | cons e l ih =>
    simp only [List.map_cons, List.mem_cons] at h
    push_neg at h
    rw [claimsFor, if_neg (fun he : e.1 = sid => h.1 he.symm)]
    exact ih h.2

theorem alookup_appendClaimsList (k : String) :
    ∀ (l : List (String × SupportedClaim)) (src : List (String × SourceRecord)),
      alookup k (appendClaimsList src l)
        = (alookup k src).map
            (fun rec => { rec with supported_claims := rec.supported_claims ++ claimsFor k l }) := by
  intro l
  induction l with
  | nil =>
    intro src
    simp only [appendClaimsList]
    cases alookup k src with
    | none => rfl
    | some v => simp [claimsFor]
  | cons e l ih =>
    intro src
    simp only [appendClaimsList]
    rw [ih, alookup_appendPure]
    by_cases hk : k = e.1
    · rw [if_pos hk]
      cases alookup k src with
      | none => rfl
      | some v => simp [claimsFor, if_pos hk.symm]
    · rw [if_neg hk]
      cases alookup k src with
      | none => rfl
      | some v => simp [claimsFor, if_neg (fun he : e.1 = k => hk he.symm)]

theorem appendClaimsList_map_fst :
    ∀ (l : List (String × SupportedClaim)) (src : List (String × SourceRecord)),
      (appendClaimsList src l).map Prod.fst = src.map Prod.fst := by
  intro l
  induction l with
  | nil => intro src; rfl
  | cons e l ih =>
    intro src
    simp only [appendClaimsList]
    rw [ih, appendPure_map_fst]

theorem appendClaimsList_map_url :
    ∀ (l : List (String × SupportedClaim)) (src : List (String × SourceRecord)),
      (appendClaimsList src l).map (fun q => q.2.url) = src.map (fun q => q.2.url) := by
  intro l
  induction l with
  | nil => intro src; rfl
  | cons e l ih =>
    intro src
    simp only [appendClaimsList]
    rw [ih, appendPure_map_url]

theorem appendClaimsList_append (a : List (String × SupportedClaim)) :
    ∀ (b : List (String × SupportedClaim)) (src : List (String × SourceRecord)),
      appendClaimsList src (a ++ b) = appendClaimsList (appendClaimsList src a) b := by
  induction a with
  | nil => intro b src; rfl
  | cons e a ih =>
    intro b src
    simp only [List.cons_append, appendClaimsList]
    exact ih b _

theorem claimsOfSupportAux_fst_mem (info : List (Nat × String)) (sup : Support) :
    ∀ (idxs : List Nat) (i : Nat) (e : String × SupportedClaim),
      e ∈ claimsOfSupportAux info sup i idxs → e.1 ∈ info.map Prod.snd := by
  intro idxs
  induction idxs with
  | nil => intro i e he; simp [claimsOfSupportAux] at he
  | cons ci rest ih =>
    intro i e he
    simp only [claimsOfSupportAux] at he
    cases hci : alookup ci info with
    | none =>
      rw [hci] at he
      exact ih (i + 1) e he
    | some sid =>
      rw [hci] at he
      rcases List.mem_cons.mp he with h1 | h2
      · rw [h1]
        exact alookup_val_mem hci
      · exact ih (i + 1) e h2

theorem claimsOfSupportAux_length (info : List (Nat × String)) (sup : Support) :
    ∀ (idxs : List Nat) (i : Nat),
      (claimsOfSupportAux info sup i idxs).length
        = (idxs.filter fun ci => (alookup ci info).isSome).length := by
  intro idxs
  induction idxs with
  | nil => intro i; rfl
  | cons ci rest ih =>
    intro i
    simp only [claimsOfSupportAux, List.filter]
    cases hci : alookup ci info with
    | none => simpa using ih (i + 1)
    | some sid => simpa using ih (i + 1)

theorem claimsOfSupportAux_mem (info : List (Nat × String)) (sup : Support) :
    ∀ (idxs : List Nat) (i j : Nat) (ci : Nat) (sid : String),
      idxs[j]? = some ci → alookup ci info = some sid →
      (sid, supClaimEntry sup (i + j)) ∈ claimsOfSupportAux info sup i idxs := by
  intro idxs
  induction idxs with
  | nil => intro i j ci sid hj; simp at hj
  | cons c0 rest ih =>
    intro i j ci sid hj hci
    cases j with
    | zero =>
      obtain rfl : c0 = ci := by simpa using hj
      simp only [claimsOfSupportAux, hci]
      exact List.mem_cons_self _ _
    | succ j =>
      have hmem := ih (i + 1) j ci sid (by simpa using hj) hci
      have harith : i + 1 + j = i + (j + 1) := by omega
      rw [harith] at hmem
      simp only [claimsOfSupportAux]
      cases alookup c0 info with
      | none => exact hmem
      | some s => exact List.mem_cons_of_mem _ hmem

theorem supIdxFold_eq (info : List (Nat × String)) (sup : Support) :
    ∀ (idxs : List Nat) (i : Nat) (src : List (String × SourceRecord)),
      (∀ v ∈ info.map Prod.snd, v ∈ src.map Prod.fst) →
      supIdxFold info sup i idxs src
        = some (appendClaimsList src (claimsOfSupportAux info sup i idxs)) := by
  intro idxs
  induction idxs with
  | nil => intro i src _; rfl
  | cons ci rest ih =>
    intro i src hsub
    cases hci : alookup ci info with
    | none =>
      simp only [supIdxFold, claimsOfSupportAux, hci]
      exact ih (i + 1) src hsub
    | some sid =>
      have hsid : sid ∈ src.map Prod.fst := hsub sid (alookup_val_mem hci)
      simp only [supIdxFold, claimsOfSupportAux, hci,
        appendClaim_eq_appendPure sid _ src hsid, appendClaimsList]
      refine ih (i + 1) _ ?_
      intro v hv
      rw [appendPure_map_fst]
      exact hsub v hv

theorem supportsFold_eq (info : List (Nat × String)) :
    ∀ (sups : List Support) (src : List (String × SourceRecord)),
      (∀ v ∈ info.map Prod.snd, v ∈ src.map Prod.fst) →
      supportsFold info src sups
        = some (appendClaimsList src (concatMap (claimsOfSupport info) sups)) := by
  intro sups
  induction sups with
  | nil => intro src _; rfl
  | cons sup sups ih =>
    intro src hsub
    simp only [supportsFold, supportStep, concatMap]
    rw [supIdxFold_eq info sup _ 0 src hsub]
    rw [appendClaimsList_append]
    refine ih _ ?_
    intro v hv
    rw [appendClaimsList_map_fst]
    exact hsub v hv

/-! ## Lemmas about `assignAll` and `dedupFirstAux` -/

theorem dedupFirstAux_congr {s₁ s₂ : List String} (hs : ∀ x, x ∈ s₁ ↔ x ∈ s₂) :
    ∀ us, dedupFirstAux s₁ us = dedupFirstAux s₂ us := by
  intro us
  induction us generalizing s₁ s₂ with
  | nil => rfl
  | cons u us ih =>
    by_cases hu : u ∈ s₁
    · rw [dedupFirstAux, dedupFirstAux, if_pos hu, if_pos ((hs u).mp hu)]
      exact ih hs
    · rw [dedupFirstAux, dedupFirstAux, if_neg hu, if_neg (fun h => hu ((hs u).mpr h))]
      refine congrArg _ (ih ?_)
      intro x
      simp only [List.mem_cons, hs x]

theorem assignAll_spec :
    ∀ (us : List String) (m : List (String × String)),
      assignAll m us = m ++ withIdsFrom (m.length + 1) (dedupFirstAux (m.map Prod.fst) us) := by
  intro us
  induction us with
  | nil => intro m; simp [assignAll, dedupFirstAux, withIdsFrom]
  | cons u us ih =>
    intro m
    by_cases hu : (alookup u m).isSome
    · have hmem : u ∈ m.map Prod.fst := alookup_isSome_iff.mp hu
      rw [assignAll, if_pos hu, ih, dedupFirstAux, if_pos hmem]
    · have hmem : u ∉ m.map Prod.fst := fun h => hu (alookup_isSome_iff.mpr h)
      rw [assignAll, if_neg hu, ih, dedupFirstAux, if_neg hmem]
      have hkeys : (m ++ [(u, shortIdOf (m.length + 1))]).map Prod.fst = m.map Prod.fst ++ [u] := by
        simp
      rw [hkeys]
      rw [@dedupFirstAux_congr (m.map Prod.fst ++ [u]) (u :: m.map Prod.fst)
        (fun x => by simp [or_comm]) us]
      simp [withIdsFrom, List.append_assoc]

theorem assignAll_extend : ∀ (us : List String) (m : List (String × String)),
    ∃ ext, assignAll m us = m ++ ext := by
  intro us
  induction us with
  | nil => intro m; exact ⟨[], by simp [assignAll]⟩
  | cons u us ih =>
    intro m
    by_cases hu : (alookup u m).isSome
    · rw [assignAll, if_pos hu]
      exact ih m
    · rw [assignAll, if_neg hu]
      obtain ⟨ext, hext⟩ := ih (m ++ [(u, shortIdOf (m.length + 1))])
      exact ⟨[(u, shortIdOf (m.length + 1))] ++ ext, by rw [hext, List.append_assoc]⟩

theorem alookup_assignAll_some {u s : String} {m : List (String × String)}
    (h : alookup u m = some s) (us : List String) :
    alookup u (assignAll m us) = some s := by
  obtain ⟨ext, hext⟩ := assignAll_extend us m
  rw [hext]
  exact alookup_append_some h

theorem assignAll_isSome :
    ∀ (us : List String) (m : List (String × String)) (u : String), u ∈ us →
      (alookup u (assignAll m us)).isSome := by
  intro us
  induction us with
  | nil => intro m u h; simp at h
  | cons v us ih =>
    intro m u hu
    by_cases hv : (alookup v m).isSome
    · rw [assignAll, if_pos hv]
      rcases List.mem_cons.mp hu with h1 | h2
      · subst h1
        obtain ⟨s, hs⟩ := Option.isSome_iff_exists.mp hv
        rw [alookup_assignAll_some hs us]
        rfl
      · exact ih m u h2
    · rw [assignAll, if_neg hv]
      rcases List.mem_cons.mp hu with h1 | h2
      · subst h1
        have hnone : alookup u m = none := by
          cases hl : alookup u m with
          | none => rfl
          | some s => exact absurd (by rw [hl]; rfl) hv
        rw [alookup_assignAll_some (alookup_snoc_self hnone) us]
        rfl
      · exact ih _ u h2

theorem assignAll_fix :
    ∀ (us : List String) (m : List (String × String)),
      (∀ u ∈ us, u ∈ m.map Prod.fst) → assignAll m us = m := by
  intro us
  induction us with
  | nil => intro m _; rfl
  | cons u us ih =>
    intro m h
    have hu : (alookup u m).isSome := alookup_isSome_iff.mpr (h u (List.mem_cons_self u us))
    rw [assignAll, if_pos hu]
    exact ih m (fun v hv => h v (List.mem_cons_of_mem u hv))

theorem assignAll_append : ∀ (a b : List String) (m : List (String × String)),
    assignAll m (a ++ b) = assignAll (assignAll m a) b := by
  intro a
  induction a with
  | nil => intro b m; rfl
  | cons u a ih =>
    intro b m
    by_cases hu : (alookup u m).isSome
    · rw [List.cons_append, assignAll, if_pos hu, assignAll, if_pos hu]
      exact ih b m
    · rw [List.cons_append, assignAll, if_neg hu, assignAll, if_neg hu]
      exact ih b _

/-! ## Chunk-phase characterisation -/

theorem shortId_counter_not_mem {rs : RunState} (hinv : RunInv rs) :
    shortIdOf rs.id_counter ∉ rs.sources.map Prod.fst := by
  obtain ⟨h1, h2, _, _, h5⟩ := hinv
  rw [← h2, h5, h1]
  intro hmem
  simp only [List.mem_map, List.mem_range] at hmem
  obtain ⟨i, hi, heq⟩ := hmem
  have := shortIdOf_inj heq
  omega

theorem nodup_snoc {l : List String} {a : String} (h : l.Nodup) (ha : a ∉ l) :
    (l ++ [a]).Nodup := by
  rw [List.nodup_append]
  refine ⟨h, List.nodup_singleton a, ?_⟩
  intro x hx hxa
  rw [List.mem_singleton] at hxa
  rw [hxa] at hx
  exact ha hx

theorem alookup_snoc_cases {κ α : Type} [DecidableEq κ] {k a : κ} {b v : α}
    {m : List (κ × α)} (h : alookup k (m ++ [(a, b)]) = some v) :
    alookup k m = some v ∨ v = b := by
  cases hm : alookup k m with
  | some w =>
    rw [alookup_append_some hm] at h
    exact Or.inl h
  | none =>
    rw [alookup_append_none hm] at h
    simp only [alookup] at h
    split at h
    · exact Or.inr (by simpa using h.symm)
    · simp [alookup] at h

/-- The invariant is preserved by inserting a fresh URL with the next id. -/
theorem RunInv_insert {rs : RunState} {w : WebInfo} (hinv : RunInv rs)
    (hlook : alookup w.uri rs.url_to_short_id = none) (title : String) :
    RunInv { url_to_short_id := rs.url_to_short_id ++ [(w.uri, shortIdOf rs.id_counter)],
             sources := rs.sources ++
               [(shortIdOf rs.id_counter,
                 { short_id := shortIdOf rs.id_counter, title := title, url := w.uri,
                   domain := w.domain, supported_claims := [] })],
             id_counter := rs.id_counter + 1 } := by
  obtain ⟨h1, h2, h3, h4, h5⟩ := hinv
  have hurl : w.uri ∉ rs.url_to_short_id.map Prod.fst := alookup_eq_none_iff.mp hlook
  refine ⟨?_, ?_, ?_, ?_, ?_⟩
  · simp [h1]
  · simp [h2]
  · simp [h3]
  · simpa using nodup_snoc h4 hurl
  · simp only [List.map_append, List.length_append, List.map_cons, List.map_nil,
      List.length_cons, List.length_nil]
    rw [h5, h1]
    have : rs.url_to_short_id.length + (0 + 1) = rs.url_to_short_id.length + 1 := by omega
    rw [this, List.range_succ]
    simp

theorem chunkFoldAux_spec :
    ∀ (cs : List Chunk) (rs : RunState) (info : List (Nat × String)) (idx : Nat),
      RunInv rs →
      (∀ p ∈ info, p.1 < idx) →
      (∀ v ∈ info.map Prod.snd, v ∈ rs.url_to_short_id.map Prod.snd) →
      RunInv (chunkFoldAux rs info idx cs).1 ∧
      (chunkFoldAux rs info idx cs).1.url_to_short_id
        = assignAll rs.url_to_short_id (chunkUrls cs) ∧
      (∀ sid rec, alookup sid rs.sources = some rec →
        alookup sid (chunkFoldAux rs info idx cs).1.sources = some rec) ∧
      (∀ sid rec', alookup sid (chunkFoldAux rs info idx cs).1.sources = some rec' →
        alookup sid rs.sources = some rec' ∨ rec'.supported_claims = []) ∧
      (chunkFoldAux rs info idx cs).2
        = info ++ infoViaAux (chunkFoldAux rs info idx cs).1.url_to_short_id idx cs ∧
      (∀ p ∈ (chunkFoldAux rs info idx cs).2, p.1 < idx + cs.length) ∧
      (∀ v ∈ (chunkFoldAux rs info idx cs).2.map Prod.snd,
        v ∈ (chunkFoldAux rs info idx cs).1.url_to_short_id.map Prod.snd) := by
  intro cs
  induction cs with
  | nil =>
    intro rs info idx hinv hlt hval
    refine ⟨hinv, rfl, fun sid rec h => h, fun sid rec' h => Or.inl h,
      by simp [chunkFoldAux, infoViaAux], ?_, hval⟩
    intro p hp
    have := hlt p hp
    simp only [List.length_nil]
    omega
  | cons c cs ih =>
    intro rs info idx hinv hlt hval
    cases hweb : c.web with
    | none =>
      have hstep : chunkFoldAux rs info idx (c :: cs) = chunkFoldAux rs info (idx + 1) cs := by
        simp [chunkFoldAux, chunkStep, hweb]
      rw [hstep]
      obtain ⟨a, b, c1, d, e, f, g⟩ :=
        ih rs info (idx + 1) hinv (fun p hp => by have := hlt p hp; omega) hval
      refine ⟨a, ?_, c1, d, ?_, ?_, g⟩
      · rw [b]
        simp [chunkUrls, hweb]
      · rw [e]
        have : infoViaAux (chunkFoldAux rs info (idx + 1) cs).1.url_to_short_id idx (c :: cs)
            = infoViaAux (chunkFoldAux rs info (idx + 1) cs).1.url_to_short_id (idx + 1) cs := by
          simp [infoViaAux, hweb]
        rw [this]
      · intro p hp
        have := f p hp
        simp only [List.length_cons]
        omega
    | some w =>
      have hfresh : idx ∉ info.map Prod.fst := by
        intro hmem
        simp only [List.mem_map] at hmem
        obtain ⟨p, hp, hpe⟩ := hmem
        have := hlt p hp
        omega
      cases hlook : alookup w.uri rs.url_to_short_id with
      | some sid =>
        have hstep : chunkFoldAux rs info idx (c :: cs)
            = chunkFoldAux rs (info ++ [(idx, sid)]) (idx + 1) cs := by
          simp [chunkFoldAux, chunkStep, hweb, hlook, aupd_not_mem hfresh]
        rw [hstep]
        obtain ⟨a, b, c1, d, e, f, g⟩ :=
          ih rs (info ++ [(idx, sid)]) (idx + 1) hinv
            (by
              intro p hp
              rcases List.mem_append.mp hp with h1 | h2
              · have := hlt p h1; omega
              · rw [List.mem_singleton] at h2
                rw [h2]
                exact Nat.lt_succ_self idx)
            (by
              intro v hv
              simp only [List.map_append, List.mem_append, List.map_cons, List.map_nil,
                List.mem_cons] at hv
              rcases hv with h1 | h2
              · exact hval v h1
              · rcases h2 with h2 | h2
                · rw [h2]
                  exact alookup_val_mem hlook
                · simp at h2)
        have hfin : alookup w.uri
            (chunkFoldAux rs (info ++ [(idx, sid)]) (idx + 1) cs).1.url_to_short_id = some sid := by
          rw [b]
          exact alookup_assignAll_some hlook _
        refine ⟨a, ?_, c1, d, ?_, ?_, g⟩
        · rw [b]
          simp [chunkUrls, hweb, assignAll, hlook]
        · rw [e]
          have hvia : infoViaAux
              (chunkFoldAux rs (info ++ [(idx, sid)]) (idx + 1) cs).1.url_to_short_id idx (c :: cs)
              = (idx, sid) :: infoViaAux
                (chunkFoldAux rs (info ++ [(idx, sid)]) (idx + 1) cs).1.url_to_short_id
                (idx + 1) cs := by
            simp [infoViaAux, hweb, hfin]
          rw [hvia]
          simp [List.append_assoc]
        · intro p hp
          have := f p hp
          simp only [List.length_cons]
          omega
      | none =>
        set sid := shortIdOf rs.id_counter with hsid
        set title := if w.title ≠ w.domain then w.title else w.domain with htitle
        set rec : SourceRecord :=
          { short_id := sid, title := title, url := w.uri, domain := w.domain,
            supported_claims := [] } with hrec
        set rs1 : RunState :=
          { url_to_short_id := rs.url_to_short_id ++ [(w.uri, sid)],
            sources := rs.sources ++ [(sid, rec)],
            id_counter := rs.id_counter + 1 } with hrs1
        have hsid_not : sid ∉ rs.sources.map Prod.fst := shortId_counter_not_mem hinv
        have hstep : chunkFoldAux rs info idx (c :: cs)
            = chunkFoldAux rs1 (info ++ [(idx, sid)]) (idx + 1) cs := by
          simp only [chunkFoldAux, chunkStep, hweb, hlook, aupd_not_mem hfresh,
            aupd_not_mem hsid_not]
        rw [hstep]
        have hinv1 : RunInv rs1 := RunInv_insert hinv hlook title
        have hlookup1 : alookup w.uri rs1.url_to_short_id = some sid :=
          alookup_snoc_self hlook
        obtain ⟨a, b, c1, d, e, f, g⟩ :=
          ih rs1 (info ++ [(idx, sid)]) (idx + 1) hinv1
            (by
              intro p hp
              rcases List.mem_append.mp hp with h1 | h2
              · have := hlt p h1; omega
              · rw [List.mem_singleton] at h2
                rw [h2]
                exact Nat.lt_succ_self idx)
            (by
              intro v hv
              simp only [List.map_append, List.mem_append, List.map_cons, List.map_nil,
                List.mem_cons] at hv
              rcases hv with h1 | h2
              · refine List.mem_map.mpr ?_
                obtain ⟨p, hp, hpv⟩ := List.mem_map.mp (hval v h1)
                exact ⟨p, by simp [hrs1, List.mem_append, hp], hpv⟩
              · rcases h2 with h2 | h2
                · rw [h2]
                  exact alookup_val_mem hlookup1
                · simp at h2)
        have hfin : alookup w.uri
            (chunkFoldAux rs1 (info ++ [(idx, sid)]) (idx + 1) cs).1.url_to_short_id
            = some sid := by
          rw [b]
          exact alookup_assignAll_some hlookup1 _
        have hcnt : shortIdOf (rs.url_to_short_id.length + 1) = sid := by
          rw [hsid, hinv.1]
        refine ⟨a, ?_, ?_, ?_, ?_, ?_, g⟩
        · rw [b]
          have hcu : chunkUrls (c :: cs) = w.uri :: chunkUrls cs := by
            simp [chunkUrls, hweb]
          rw [hcu, assignAll, if_neg (by rw [hlook]; simp), hcnt]
        · intro sid' rec' h
          exact c1 sid' rec' (alookup_append_some h)
        · intro sid' rec' h
          rcases d sid' rec' h with h1 | h1
          · rcases alookup_snoc_cases h1 with h2 | h2
            · exact Or.inl h2
            · rw [h2, hrec]
              exact Or.inr rfl
          · exact Or.inr h1
        · rw [e]
          have hvia : infoViaAux
              (chunkFoldAux rs1 (info ++ [(idx, sid)]) (idx + 1) cs).1.url_to_short_id
              idx (c :: cs)
              = (idx, sid) :: infoViaAux
                (chunkFoldAux rs1 (info ++ [(idx, sid)]) (idx + 1) cs).1.url_to_short_id
                (idx + 1) cs := by
            simp [infoViaAux, hweb, hfin]
          rw [hvia]
          simp [List.append_assoc]
        · intro p hp
          have := f p hp
          simp only [List.length_cons]
          omega

/-! ## Event- and run-level characterisation -/

theorem concatMap_mem {α β : Type} {f : α → List β} {b : β} :
    ∀ l : List α, b ∈ concatMap f l → ∃ a ∈ l, b ∈ f a := by
  intro l
  induction l with
  | nil => intro h; simp [concatMap] at h
  | cons a l ih =>
    intro h
    rcases List.mem_append.mp h with h1 | h2
    · exact ⟨a, List.mem_cons_self a l, h1⟩
    · obtain ⟨a', ha', hb⟩ := ih h2
      exact ⟨a', List.mem_cons_of_mem a ha', hb⟩

theorem infoViaAux_val_mem {m : List (String × String)} :
    ∀ (cs : List Chunk) (idx : Nat) (v : String),
      v ∈ (infoViaAux m idx cs).map Prod.snd → v ∈ m.map Prod.snd := by
  intro cs
  induction cs with
  | nil => intro idx v h; simp [infoViaAux] at h
  | cons c cs ih =>
    intro idx v h
    cases hweb : c.web with
    | none =>
      simp only [infoViaAux, hweb] at h
      exact ih (idx + 1) v h
    | some w =>
      simp only [infoViaAux, hweb] at h
      cases hlook : alookup w.uri m with
      | none =>
        simp only [hlook] at h
        exact ih (idx + 1) v h
      | some sid =>
        simp only [hlook] at h
        simp only [List.map_cons, List.mem_cons] at h
        rcases h with h1 | h2
        · rw [h1]
          exact alookup_val_mem hlook
        · exact ih (idx + 1) v h2

theorem infoViaAux_congr {m₁ m₂ : List (String × String)} :
    ∀ (cs : List Chunk) (idx : Nat),
      (∀ u ∈ chunkUrls cs, alookup u m₁ = alookup u m₂) →
      infoViaAux m₁ idx cs = infoViaAux m₂ idx cs := by
  intro cs
  induction cs with
  | nil => intro idx _; rfl
  | cons c cs ih =>
    intro idx h
    cases hweb : c.web with
    | none =>
      simp only [infoViaAux, hweb]
      exact ih (idx + 1) (fun u hu => h u (by simp only [chunkUrls, hweb]; exact hu))
    | some w =>
      have hhead : alookup w.uri m₁ = alookup w.uri m₂ :=
        h w.uri (by simp only [chunkUrls, hweb]; exact List.mem_cons_self _ _)
      have htail : ∀ u ∈ chunkUrls cs, alookup u m₁ = alookup u m₂ :=
        fun u hu => h u (by simp only [chunkUrls, hweb]; exact List.mem_cons_of_mem _ hu)
      simp only [infoViaAux, hweb, ← hhead]
      cases alookup w.uri m₁ with
      | none => exact ih (idx + 1) htail
      | some sid => rw [ih (idx + 1) htail]

theorem eventClaims_congr {m₁ m₂ : List (String × String)} (ev : Event)
    (h : ∀ u ∈ eventUrls ev, alookup u m₁ = alookup u m₂) :
    eventClaims m₁ ev = eventClaims m₂ ev := by
  cases hmeta : ev.grounding_metadata with
  | none => simp only [eventClaims, hmeta]
  | some gm =>
    simp only [eventClaims, hmeta]
    by_cases hc : gm.grounding_chunks = []
    · rw [if_pos hc, if_pos hc]
    · rw [if_neg hc, if_neg hc]
      simp only [eventUrls, hmeta, if_neg hc] at h
      rw [infoViaAux_congr gm.grounding_chunks 0 h]

theorem eventClaims_fst_mem {m : List (String × String)} {ev : Event}
    {e : String × SupportedClaim} (h : e ∈ eventClaims m ev) :
    e.1 ∈ m.map Prod.snd := by
  rcases hmeta : ev.grounding_metadata with - | gm
  · simp only [eventClaims, hmeta] at h
    simp at h
  · simp only [eventClaims, hmeta] at h
    by_cases hc : gm.grounding_chunks = []
    · rw [if_pos hc] at h
      simp at h
    · rw [if_neg hc] at h
      obtain ⟨sup, _, he⟩ := concatMap_mem _ h
      exact infoViaAux_val_mem gm.grounding_chunks 0 e.1
        (claimsOfSupportAux_fst_mem _ sup _ 0 e he)

theorem processEvent_spec (rs : RunState) (ev : Event) (hinv : RunInv rs) :
    ∃ rs', processEvent rs ev = some rs' ∧
      RunInv rs' ∧
      rs'.url_to_short_id = assignAll rs.url_to_short_id (eventUrls ev) ∧
      (∀ sid rec', alookup sid rs'.sources = some rec' →
        rec'.supported_claims
          = (match alookup sid rs.sources with
             | some rec => rec.supported_claims
             | none => []) ++ claimsFor sid (eventClaims rs'.url_to_short_id ev)) ∧
      (∀ sid rec, alookup sid rs.sources = some rec → (alookup sid rs'.sources).isSome) := by
  cases hmeta : ev.grounding_metadata with
  | none =>
    refine ⟨rs, by simp only [processEvent, hmeta], hinv, ?_, ?_, ?_⟩
    · simp only [eventUrls, hmeta, assignAll]
    · intro sid rec' h
      rw [h]
      simp only [eventClaims, hmeta, claimsFor, List.append_nil]
    · intro sid rec h
      rw [h]
      rfl
  | some gm =>
    by_cases hc : gm.grounding_chunks = []
    · refine ⟨rs, by simp only [processEvent, hmeta, if_pos hc], hinv, ?_, ?_, ?_⟩
      · simp only [eventUrls, hmeta, if_pos hc, assignAll]
      · intro sid rec' h
        rw [h]
        simp only [eventClaims, hmeta, if_pos hc, claimsFor, List.append_nil]
      · intro sid rec h
        rw [h]
        rfl
    · obtain ⟨a, b, c1, d, e, f, g⟩ :=
        chunkFoldAux_spec gm.grounding_chunks rs [] 0 hinv
          (by intro p hp; simp at hp) (by intro v hv; simp at hv)
      set ri := chunkFoldAux rs [] 0 gm.grounding_chunks with hri
      have hsub : ∀ v ∈ ri.2.map Prod.snd, v ∈ ri.1.sources.map Prod.fst := by
        intro v hv
        rw [← a.2.1]
        exact g v hv
      have hsup := supportsFold_eq ri.2 (gm.grounding_supports.getD []) ri.1.sources hsub
      refine ⟨{ ri.1 with
          sources := appendClaimsList ri.1.sources
            (concatMap (claimsOfSupport ri.2) (gm.grounding_supports.getD [])) },
        ?_, ?_, ?_, ?_, ?_⟩
      · simp only [processEvent, hmeta, if_neg hc, chunkFold, ← hri, hsup]
      · obtain ⟨a1, a2, a3, a4, a5⟩ := a
        refine ⟨a1, ?_, ?_, a4, a5⟩
        · rw [a2]
          exact (appendClaimsList_map_fst _ _).symm
        · rw [← a3]
          exact appendClaimsList_map_url _ _
      · simp only [eventUrls, hmeta, if_neg hc]
        exact b
      · intro sid rec' h
        simp only [alookup_appendClaimsList] at h
        cases h1 : alookup sid ri.1.sources with
        | none => rw [h1] at h; simp at h
        | some rec1 =>
          rw [h1] at h
          simp only [Option.map_some'] at h
          have hrec' : rec'.supported_claims
              = rec1.supported_claims
                ++ claimsFor sid (concatMap (claimsOfSupport ri.2) (gm.grounding_supports.getD [])) := by
            have h2 := Option.some.inj h
            rw [← h2]
          have hclaims : eventClaims ri.1.url_to_short_id ev
              = concatMap (claimsOfSupport ri.2) (gm.grounding_supports.getD []) := by
            simp only [eventClaims, hmeta, if_neg hc]
            have : ri.2 = infoViaAux ri.1.url_to_short_id 0 gm.grounding_chunks := by
              rw [e]
              simp
            rw [← this]
          cases halook : alookup sid rs.sources with
          | some rec =>
            have h2 : alookup sid ri.1.sources = some rec := c1 sid rec halook
            rw [h2] at h1
            obtain rfl : rec = rec1 := by simpa using h1
            simp only [hrec', hclaims]
          | none =>
            rcases d sid rec1 h1 with h2 | h2
            · rw [halook] at h2
              simp at h2
            · simp only [hrec', hclaims, h2]
      · intro sid rec h
        have h2 : alookup sid ri.1.sources = some rec := c1 sid rec h
        simp only [alookup_appendClaimsList, h2, Option.map_some]
        rfl

theorem eventsFold_spec :
    ∀ (events : List Event) (rs : RunState), RunInv rs →
      ∃ rs', eventsFold rs events = some rs' ∧
        RunInv rs' ∧
        rs'.url_to_short_id = assignAll rs.url_to_short_id (concatMap eventUrls events) ∧
        (∀ sid rec', alookup sid rs'.sources = some rec' →
          rec'.supported_claims
            = (match alookup sid rs.sources with
               | some rec => rec.supported_claims
               | none => []) ++
              claimsFor sid (concatMap (eventClaims rs'.url_to_short_id) events)) ∧
        (∀ sid rec, alookup sid rs.sources = some rec → (alookup sid rs'.sources).isSome) := by
  intro events
  induction events with
  | nil =>
    intro rs hinv
    refine ⟨rs, rfl, hinv, by rw [concatMap, assignAll], ?_, ?_⟩
    · intro sid rec' h
      rw [h, concatMap, claimsFor, List.append_nil]
    · intro sid rec h
      rw [h]
      rfl
  | cons ev evs ih =>
    intro rs hinv
    obtain ⟨rs1, p0, pa, pb, pc, pd⟩ := processEvent_spec rs ev hinv
    obtain ⟨rs', i0, ia, ib, ic, id2⟩ := ih rs1 pa
    have hagree : ∀ u ∈ eventUrls ev,
        alookup u rs1.url_to_short_id = alookup u rs'.url_to_short_id := by
      intro u hu
      have hsome : (alookup u rs1.url_to_short_id).isSome := by
        rw [pb]
        exact assignAll_isSome _ _ u hu
      obtain ⟨s, hs⟩ := Option.isSome_iff_exists.mp hsome
      rw [hs, ib, alookup_assignAll_some hs]
    have hevagree : eventClaims rs1.url_to_short_id ev
        = eventClaims rs'.url_to_short_id ev := eventClaims_congr ev hagree
    refine ⟨rs', ?_, ia, ?_, ?_, ?_⟩
    · simp only [eventsFold, p0, i0]
    · rw [ib, pb, concatMap, ← assignAll_append]
    · intro sid rec' h
      have hic := ic sid rec' h
      cases h1 : alookup sid rs1.sources with
      | some rec1 =>
        simp only [h1] at hic
        have hpc := pc sid rec1 h1
        rw [hevagree] at hpc
        rw [hic, hpc, concatMap, claimsFor_append, List.append_assoc]
      | none =>
        simp only [h1] at hic
        have hnone : alookup sid rs.sources = none := by
          cases h2 : alookup sid rs.sources with
          | none => rfl
          | some rec =>
            have := pd sid rec h2
            rw [h1] at this
            simp at this
        have hnil : claimsFor sid (eventClaims rs'.url_to_short_id ev) = [] := by
          refine claimsFor_eq_nil ?_
          intro hmem
          obtain ⟨e', he', hfst⟩ := List.mem_map.mp hmem
          rw [← hevagree] at he'
          have hval : sid ∈ rs1.url_to_short_id.map Prod.snd := by
            rw [← hfst]
            exact eventClaims_fst_mem he'
          rw [pa.2.1] at hval
          have : (alookup sid rs1.sources).isSome := alookup_isSome_iff.mpr hval
          rw [h1] at this
          simp at this
        rw [hic, hnone, concatMap, claimsFor_append, hnil]
        simp
    · intro sid rec h
      have h1 := pd sid rec h
      obtain ⟨rec1, hrec1⟩ := Option.isSome_iff_exists.mp h1
      exact id2 sid rec1 hrec1

/-- Top-level characterisation of `collect_research_sources_callback` from a
canonical state: it succeeds, the resulting index is `assignAll` of the
events' URLs, every record's claims grow by exactly the event-derived
claims, and the canonical shape is preserved.  The other session slots are
untouched. -/
theorem collect_spec (st : SessionState) (events : List Event) (hinv : InvState st) :
    ∃ st', collect_research_sources_callback st events = some st' ∧
      InvState st' ∧
      st'.url_to_short_id = assignAll st.url_to_short_id (concatMap eventUrls events) ∧
      (∀ sid rec', alookup sid st'.sources = some rec' →
        rec'.supported_claims
          = (match alookup sid st.sources with
             | some rec => rec.supported_claims
             | none => []) ++
            claimsFor sid (concatMap (eventClaims st'.url_to_short_id) events)) ∧
      (∀ sid rec, alookup sid st.sources = some rec → (alookup sid st'.sources).isSome) ∧
      st'.research_evaluation = st.research_evaluation ∧
      st'.final_cited_report = st.final_cited_report ∧
      st'.final_report_with_citations = st.final_report_with_citations := by
  obtain ⟨rs', h0, ha, hb, hc, hd⟩ :=
    eventsFold_spec events
      { url_to_short_id := st.url_to_short_id, sources := st.sources,
        id_counter := st.url_to_short_id.length + 1 } hinv
  refine ⟨{ st with url_to_short_id := rs'.url_to_short_id, sources := rs'.sources },
    ?_, ?_, hb, hc, hd, rfl, rfl, rfl⟩
  · rw [collect_research_sources_callback, h0]
  · rw [InvState]
    have hcnt : rs'.url_to_short_id.length + 1 = rs'.id_counter := ha.1.symm
    obtain ⟨a1, a2, a3, a4, a5⟩ := ha
    exact ⟨rfl, a2, a3, a4, a5⟩

/-! ## Citation-rewriter lemmas -/

theorem stripLit_length :
    ∀ (l cs cs' : List Char), stripLit l cs = some cs' → cs'.length + l.length = cs.length := by
  intro l
  induction l with
  | nil =>
    intro cs cs' h
    obtain rfl : cs = cs' := by simpa [stripLit] using h
    simp
  | cons a l ih =>
    intro cs cs' h
    cases cs with
    | nil => simp [stripLit] at h
    | cons c cs =>
      rw [stripLit] at h
      split at h
      · have := ih cs cs' h
        simp only [List.length_cons]
        omega
      · simp at h

theorem dropWhileLen {α : Type} (p : α → Bool) :
    ∀ cs : List α, (cs.dropWhile p).length ≤ cs.length := by
  intro cs
  induction cs with
  | nil => simp
  | cons c cs ih =>
    rw [List.dropWhile]
    cases p c with
    | true => simp only [List.length_cons]; omega
    | false => simp

theorem reqSpace_length {cs cs' : List Char} (h : reqSpace cs = some cs') :
    cs'.length < cs.length := by
  cases cs with
  | nil => simp [reqSpace] at h
  | cons c cs =>
    rw [reqSpace] at h
    split at h
    · obtain rfl : cs.dropWhile isPySpace = cs' := by simpa using h
      have := dropWhileLen isPySpace cs
      simp only [List.length_cons]
      omega
    · simp at h

theorem optQuote_length (cs : List Char) : (optQuote cs).length ≤ cs.length := by
  cases cs with
  | nil => simp [optQuote]
  | cons c cs =>
    rw [optQuote]
    split
    · simp only [List.length_cons]; omega
    · simp

theorem takeDigits1_length {cs : List Char} {p : List Char × List Char}
    (h : takeDigits1 cs = some p) : p.2.length ≤ cs.length := by
  rw [takeDigits1] at h
  split at h
  · simp at h
  · obtain rfl : (cs.takeWhile isDigitCh, cs.dropWhile isDigitCh) = p := by simpa using h
    exact dropWhileLen isDigitCh cs

theorem matchEqCh_length {cs cs' : List Char} (h : matchCite.matchEqCh cs = some cs') :
    cs'.length < cs.length := by
  cases cs with
  | nil => simp [matchCite.matchEqCh] at h
  | cons c cs =>
    rw [matchCite.matchEqCh] at h
    split at h
    · obtain rfl : cs = cs' := by simpa using h
      simp
    · simp at h

theorem matchCite_length {cs : List Char} {sid : String} {rest : List Char}
    (h : matchCite cs = some (sid, rest)) : rest.length < cs.length := by
  rw [matchCite, Option.bind_eq_some] at h
  obtain ⟨cs1, h1, h⟩ := h
  rw [Option.bind_eq_some] at h
  obtain ⟨cs2, h2, h⟩ := h
  rw [Option.bind_eq_some] at h
  obtain ⟨cs3, h3, h⟩ := h
  rw [Option.bind_eq_some] at h
  obtain ⟨cs4, h4, h⟩ := h
  rw [Option.bind_eq_some] at h
  obtain ⟨cs5, h5, h⟩ := h
  rw [Option.bind_eq_some] at h
  obtain ⟨p, h6, h⟩ := h
  rw [Option.map_eq_some'] at h
  obtain ⟨rest', h7, h8⟩ := h
  obtain ⟨-, rfl⟩ : String.mk (("src-".toList) ++ p.1) = sid ∧ rest' = rest := by
    constructor
    · exact congrArg Prod.fst h8
    · exact congrArg Prod.snd h8
  have e1 := stripLit_length _ _ _ h1
  have e2 := reqSpace_length h2
  have e3 := stripLit_length _ _ _ h3
  have e4 := matchEqCh_length h4
  have e4b := dropWhileLen isPySpace cs3
  have e5 := stripLit_length _ _ _ h5
  have e5b := dropWhileLen isPySpace cs4
  have e5c := optQuote_length (cs4.dropWhile isPySpace)
  have e5d := dropWhileLen isPySpace (optQuote (cs4.dropWhile isPySpace))
  have e6 := takeDigits1_length h6
  have e7 := stripLit_length _ _ _ h7
  have e7b := dropWhileLen isPySpace p.2
  have e7c := optQuote_length (p.2.dropWhile isPySpace)
  have e7d := dropWhileLen isPySpace (optQuote (p.2.dropWhile isPySpace))
  simp only [String.toList] at e1 e3 e5 e7
  omega

theorem citeGoF_fuel (sources : List (String × SourceRecord)) :
    ∀ (f1 f2 : Nat) (cs : List Char), cs.length ≤ f1 → cs.length ≤ f2 →
      citeGoF sources f1 cs = citeGoF sources f2 cs := by
  intro f1
  induction f1 with
  | zero =>
    intro f2 cs h1 _
    obtain rfl : cs = [] := List.length_eq_zero.mp (by omega)
    cases f2 <;> rfl
  | succ f1 ih =>
    intro f2 cs h1 h2
    cases cs with
    | nil => cases f2 <;> rfl
    | cons c cs' =>
      simp only [List.length_cons] at h1 h2
      cases f2 with
      | zero => omega
      | succ g2 =>
        cases hm : matchCite (c :: cs') with
        | some pr =>
          obtain ⟨sid, rest⟩ := pr
          have hlt := matchCite_length hm
          simp only [List.length_cons] at hlt
          have hre : citeGoF sources f1 rest = citeGoF sources g2 rest :=
            ih g2 rest (by omega) (by omega)
          simp only [citeGoF, hm, hre]
        | none =>
          have hre : citeGoF sources f1 cs' = citeGoF sources g2 cs' :=
            ih g2 cs' (by omega) (by omega)
          simp only [citeGoF, hm, hre]

theorem citeGo_match_miss {sources : List (String × SourceRecord)} {cs : List Char}
    {sid : String} {rest : List Char}
    (h : matchCite cs = some (sid, rest)) (hmiss : alookup sid sources = none) :
    citeGo sources cs
      = ((citeGo sources rest).1,
         warnMsg (cs.take (cs.length - rest.length)) :: (citeGo sources rest).2) := by
  cases cs with
  | nil => simp [matchCite, stripLit, String.toList] at h
  | cons c cs' =>
    have hlt := matchCite_length h
    simp only [List.length_cons] at hlt
    have hre : citeGoF sources cs'.length rest = citeGoF sources rest.length rest :=
      citeGoF_fuel sources cs'.length rest.length rest (by omega) (le_refl _)
    show citeGoF sources (c :: cs').length (c :: cs') = _
    simp only [List.length_cons, citeGoF, h, hmiss, hre]
    rfl

theorem citeGo_match_hit {sources : List (String × SourceRecord)} {cs : List Char}
    {sid : String} {rest : List Char} {rec : SourceRecord}
    (h : matchCite cs = some (sid, rest)) (hrec : alookup sid sources = some rec) :
    citeGo sources cs
      = (tagReplacement rec ++ (citeGo sources rest).1, (citeGo sources rest).2) := by
  cases cs with
  | nil => simp [matchCite, stripLit, String.toList] at h
  | cons c cs' =>
    have hlt := matchCite_length h
    simp only [List.length_cons] at hlt
    have hre : citeGoF sources cs'.length rest = citeGoF sources rest.length rest :=
      citeGoF_fuel sources cs'.length rest.length rest (by omega) (le_refl _)
    show citeGoF sources (c :: cs').length (c :: cs') = _
    simp only [List.length_cons, citeGoF, h, hrec, hre]
    rfl

theorem citeGo_nomatch {sources : List (String × SourceRecord)} {c : Char} {cs : List Char}
    (h : matchCite (c :: cs) = none) :
    citeGo sources (c :: cs) = (c :: (citeGo sources cs).1, (citeGo sources cs).2) := by
  show citeGoF sources (c :: cs).length (c :: cs) = _
  simp only [List.length_cons, citeGoF, h]
  rfl

theorem matchCite_head {c : Char} {cs : List Char} (hne : c ≠ '<') :
    matchCite (c :: cs) = none := by
  have hlit : ("<cite".toList) = '<' :: ("cite".toList) := rfl
  rw [matchCite, hlit, stripLit, if_neg hne]
  rfl

theorem citeGo_append_clean (sources : List (String × SourceRecord)) :
    ∀ (pre cs : List Char), (∀ ch ∈ pre, ch ≠ '<') →
      citeGo sources (pre ++ cs)
        = (pre ++ (citeGo sources cs).1, (citeGo sources cs).2) := by
  intro pre
  induction pre with
  | nil => intro cs _; rfl
  | cons ch pre ih =>
    intro cs hpre
    have hne : ch ≠ '<' := hpre ch (List.mem_cons_self _ _)
    rw [List.cons_append, citeGo_nomatch (matchCite_head hne),
      ih cs (fun x hx => hpre x (List.mem_cons_of_mem _ hx))]
    rfl

/-! ## Counting and uniqueness helpers -/

theorem countOcc_pos_mem {α : Type} [DecidableEq α] {u : α} :
    ∀ l : List α, 0 < countOcc u l → u ∈ l := by
  intro l
  induction l with
  | nil => intro h; simp [countOcc] at h
  | cons v vs ih =>
    intro h
    by_cases hv : v = u
    · rw [hv]
      exact List.mem_cons_self u vs
    · rw [countOcc, if_neg hv] at h
      exact List.mem_cons_of_mem v (ih h)

theorem countOcc_eq_one {α : Type} [DecidableEq α] :
    ∀ {l : List α}, l.Nodup → ∀ {u : α}, u ∈ l → countOcc u l = 1 := by
  intro l
  induction l with
  | nil => intro _ u h; simp at h
  | cons v vs ih =>
    intro hnd u hu
    have hnd2 := List.Nodup.of_cons hnd
    have hvnotin : v ∉ vs := by
      intro hmem
      exact (List.nodup_cons.mp hnd).1 hmem
    rcases List.mem_cons.mp hu with h1 | h2
    · subst h1
      rw [countOcc, if_pos rfl]
      have hz : countOcc u vs = 0 := by
        by_contra hne
        exact hvnotin (countOcc_pos_mem vs (by omega))
      omega
    · have hvu : ¬v = u := by
        intro he
        rw [he] at hvnotin
        exact hvnotin h2
      rw [countOcc, if_neg hvu]
      exact ih hnd2 h2

theorem filter_url_length (url : String) :
    ∀ src : List (String × SourceRecord),
      (src.filter (fun q => q.2.url = url)).length
        = countOcc url (src.map fun q => q.2.url) := by
  intro src
  induction src with
  | nil => rfl
  | cons q src ih =>
    by_cases hq : q.2.url = url
    · simp only [List.filter_cons, List.map_cons, countOcc]
      rw [if_pos (by simpa using hq), if_pos hq]
      simp only [List.length_cons]
      omega
    · simp only [List.filter_cons, List.map_cons, countOcc]
      rw [if_neg (by simpa using hq), if_neg hq]
      exact ih

theorem concatMap_append {α β : Type} (f : α → List β) :
    ∀ a b : List α, concatMap f (a ++ b) = concatMap f a ++ concatMap f b := by
  intro a b
  induction a with
  | nil => rfl
  | cons x a ih =>
    rw [List.cons_append, concatMap, concatMap, ih, List.append_assoc]

theorem alookup_of_mem_nodup {κ α : Type} [DecidableEq κ] :
    ∀ {m : List (κ × α)}, (m.map Prod.fst).Nodup →
      ∀ {k : κ} {v : α}, (k, v) ∈ m → alookup k m = some v := by
  intro m
  induction m with
  | nil => intro _ k v h; simp at h
  | cons p m ih =>
    intro hnd k v hmem
    rcases List.mem_cons.mp hmem with h1 | h2
    · rw [alookup, if_pos (by rw [← h1])]
      rw [← h1]
    · have hk : ¬p.1 = k := by
        intro he
        have : k ∈ m.map Prod.fst := List.mem_map.mpr ⟨(k, v), h2, rfl⟩
        rw [← he] at this
        exact (List.nodup_cons.mp (by simpa using hnd)).1 this
      rw [alookup, if_neg hk]
      exact ih (List.Nodup.of_cons (by simpa using hnd)) h2

theorem mem_snd_unique {κ α : Type} :
    ∀ {m : List (κ × α)}, (m.map Prod.snd).Nodup →
      ∀ {a b : κ × α}, a ∈ m → b ∈ m → a.2 = b.2 → a = b := by
  intro m
  induction m with
  | nil => intro _ a b h; simp at h
  | cons p m ih =>
    intro hnd a b ha hb he
    have hnd' : (m.map Prod.snd).Nodup := List.Nodup.of_cons (by simpa using hnd)
    have hhead : p.2 ∉ m.map Prod.snd := (List.nodup_cons.mp (by simpa using hnd)).1
    rcases List.mem_cons.mp ha with ha1 | ha2 <;> rcases List.mem_cons.mp hb with hb1 | hb2
    · rw [ha1, hb1]
    · exfalso
      refine hhead (List.mem_map.mpr ⟨b, hb2, ?_⟩)
      rw [← he, ha1]
    · exfalso
      refine hhead (List.mem_map.mpr ⟨a, ha2, ?_⟩)
      rw [he, hb1]
    · exact ih hnd' ha2 hb2 he

theorem canonical_values_nodup {u2s : List (String × String)}
    (h5 : u2s.map Prod.snd
      = (List.range u2s.length).map (fun i => shortIdOf (i + 1))) :
    (u2s.map Prod.snd).Nodup := by
  rw [h5]
  refine List.Nodup.map ?_ (List.nodup_range _)
  intro a b hab
  have := shortIdOf_inj hab
  omega

/-- A canonical session state satisfies the specification's bidirectional
index/registry consistency, with uniqueness of the URL per short id. -/
theorem InvState_consistent {st : SessionState} (hinv : InvState st) :
    ConsistentState st.url_to_short_id st.sources := by
  obtain ⟨-, h2, h3, h4, h5⟩ := hinv
  constructor
  · intro p hp
    rw [← h2]
    exact List.mem_map.mpr ⟨p, hp, rfl⟩
  · intro q hq
    have hval : q.1 ∈ st.url_to_short_id.map Prod.snd := by
      rw [h2]
      exact List.mem_map.mpr ⟨q, hq, rfl⟩
    obtain ⟨p, hpmem, hpv⟩ := List.mem_map.mp hval
    refine ⟨p.1, ?_, ?_⟩
    · have : (p.1, q.1) ∈ st.url_to_short_id := by
        have : (p.1, p.2) = p := by
          exact rfl
        rw [← hpv]
        rw [this]
        exact hpmem
      exact alookup_of_mem_nodup h4 this
    · intro y hy
      have hmemy : (y, q.1) ∈ st.url_to_short_id := alookup_mem hy
      have hmemp : (p.1, q.1) ∈ st.url_to_short_id := by
        have heta : (p.1, p.2) = p := rfl
        rw [← hpv, heta]
        exact hpmem
      have := mem_snd_unique (canonical_values_nodup h5) hmemy hmemp rfl
      exact congrArg Prod.fst this

theorem infoViaAux_mem_origin {m : List (String × String)} :
    ∀ (cs : List Chunk) (idx : Nat) (p : Nat × String), p ∈ infoViaAux m idx cs →
      ∃ c w, idx ≤ p.1 ∧ cs[p.1 - idx]? = some c ∧ c.web = some w ∧
        alookup w.uri m = some p.2 := by
  intro cs
  induction cs with
  | nil => intro idx p h; simp [infoViaAux] at h
  | cons c cs ih =>
    intro idx p h
    cases hweb : c.web with
    | none =>
      simp only [infoViaAux, hweb] at h
      obtain ⟨c', w, hle, hget, hw, hl⟩ := ih (idx + 1) p h
      refine ⟨c', w, by omega, ?_, hw, hl⟩
      have harith : p.1 - idx = (p.1 - (idx + 1)) + 1 := by omega
      rw [harith]
      simpa using hget
    | some w =>
      simp only [infoViaAux, hweb] at h
      cases hlook : alookup w.uri m with
      | none =>
        simp only [hlook] at h
        obtain ⟨c', w', hle, hget, hw, hl⟩ := ih (idx + 1) p h
        refine ⟨c', w', by omega, ?_, hw, hl⟩
        have harith : p.1 - idx = (p.1 - (idx + 1)) + 1 := by omega
        rw [harith]
        simpa using hget
      | some sid =>
        simp only [hlook] at h
        rcases List.mem_cons.mp h with h1 | h2
        · refine ⟨c, w, ?_, ?_, hweb, ?_⟩
          · rw [h1]
          · rw [h1]
            simp
          · rw [h1, hlook]
        · obtain ⟨c', w', hle, hget, hw, hl⟩ := ih (idx + 1) p h2
          refine ⟨c', w', by omega, ?_, hw, hl⟩
          have harith : p.1 - idx = (p.1 - (idx + 1)) + 1 := by omega
          rw [harith]
          simpa using hget

/-! ## Canonical starting point -/

theorem InvState_empty : InvState emptyState :=
  ⟨rfl, rfl, rfl, List.nodup_nil, rfl⟩

/-! ## The claims -/

/-- C1: for every sequence of session events whose grounding chunks reference
the same URL two or more times, after `collect_research_sources_callback`
runs from the empty state the sources registry contains exactly one record
for that URL, and the short identifier stored for it is the one assigned at
the URL's first occurrence in event order (running the collector on the
minimal prefix ending at the first occurrence already assigns it, and the
full run returns the same identifier). -/
theorem collect_dedups_urls (events : List Event) (url : String)
    (hocc : 2 ≤ countOcc url (concatMap eventUrls events)) :
    ∃ st', collect_research_sources_callback emptyState events = some st' ∧
      (st'.sources.filter (fun q => q.2.url = url)).length = 1 ∧
      ∀ pre e post, events = pre ++ e :: post →
        url ∉ concatMap eventUrls pre → url ∈ eventUrls e →
        ∃ stF, collect_research_sources_callback emptyState (pre ++ [e]) = some stF ∧
          (alookup url stF.url_to_short_id).isSome ∧
          alookup url st'.url_to_short_id = alookup url stF.url_to_short_id := by
  obtain ⟨st', h0, hinv', hu2s, -, -, -, -, -⟩ := collect_spec emptyState events InvState_empty
  have hmem : url ∈ concatMap eventUrls events := countOcc_pos_mem _ (by omega)
  have hkey : url ∈ st'.url_to_short_id.map Prod.fst := by
    have hs : (alookup url st'.url_to_short_id).isSome := by
      rw [hu2s]
      exact assignAll_isSome _ _ url hmem
    exact alookup_isSome_iff.mp hs
  obtain ⟨-, -, h3, h4, -⟩ := hinv'
  have h3' : st'.sources.map (fun q => q.2.url) = st'.url_to_short_id.map Prod.fst := h3
  have h4' : (st'.url_to_short_id.map Prod.fst).Nodup := h4
  refine ⟨st', h0, ?_, ?_⟩
  · rw [filter_url_length, h3']
    exact countOcc_eq_one h4' hkey
  · intro pre e post hsplit hnotpre hine
    obtain ⟨stF, hF0, -, hFu2s, -, -, -, -, -⟩ :=
      collect_spec emptyState (pre ++ [e]) InvState_empty
    have hmemF : url ∈ concatMap eventUrls (pre ++ [e]) := by
      rw [concatMap_append]
      refine List.mem_append.mpr (Or.inr ?_)
      rw [concatMap]
      exact List.mem_append.mpr (Or.inl hine)
    have hFsome : (alookup url stF.url_to_short_id).isSome := by
      rw [hFu2s]
      exact assignAll_isSome _ _ url hmemF
    obtain ⟨s, hs⟩ := Option.isSome_iff_exists.mp hFsome
    refine ⟨stF, hF0, hFsome, ?_⟩
    have hsplit2 : events = (pre ++ [e]) ++ post := by
      rw [hsplit]
      simp
    rw [hs, hu2s, hsplit2, concatMap_append, assignAll_append, ← hFu2s]
    exact alookup_assignAll_some hs _

/-- C2: from a canonical state, the collector succeeds and appends exactly
the unseen URLs in first-seen order with the consecutive identifiers
`src-(n+1), src-(n+2), ...` continuing from the current registry size `n`;
already-assigned identifiers are never reassigned or changed, and from the
empty state the assignment is exactly `src-1 .. src-N` on the distinct URLs
in first-seen order. -/
theorem collect_ids_sequential (st : SessionState) (events : List Event)
    (hinv : InvState st) :
    ∃ st', collect_research_sources_callback st events = some st' ∧
      st'.url_to_short_id
        = st.url_to_short_id
          ++ withIdsFrom (st.url_to_short_id.length + 1)
            (dedupFirstAux (st.url_to_short_id.map Prod.fst) (concatMap eventUrls events)) ∧
      (∀ u s, alookup u st.url_to_short_id = some s →
        alookup u st'.url_to_short_id = some s) ∧
      (st = emptyState → st'.url_to_short_id = withIdsFrom 1 (firstSeenUrls events)) := by
  obtain ⟨st', h0, -, hu2s, -, -, -, -, -⟩ := collect_spec st events hinv
  refine ⟨st', h0, ?_, ?_, ?_⟩
  · rw [hu2s, assignAll_spec]
  · intro u s hs
    rw [hu2s]
    exact alookup_assignAll_some hs _
  · intro he
    subst he
    rw [hu2s, assignAll_spec]
    rfl

/-- C3: processing one grounding support appends exactly the claims of
`claimsOfSupport`; each position `i` of the chunk-index list whose chunk
index resolves in the per-event map yields a claim entry whose confidence
is the `i`-th confidence score when `i` is within the confidence list and
`1/2` (the float `0.5`) otherwise, including when the list is absent. -/
theorem support_confidence_rule (info : List (Nat × String))
    (src : List (String × SourceRecord)) (sup : Support)
    (hsub : ∀ v ∈ info.map Prod.snd, v ∈ src.map Prod.fst) :
    supportStep info src sup = some (appendClaimsList src (claimsOfSupport info sup)) ∧
    ∀ (i ci : Nat) (sid : String),
      (sup.grounding_chunk_indices.getD [])[i]? = some ci →
      alookup ci info = some sid →
      (sid, { text_segment := segText sup,
              confidence :=
                if i < (sup.confidence_scores.getD []).length then
                  (sup.confidence_scores.getD []).getD i 0
                else 1 / 2 }) ∈ claimsOfSupport info sup := by
  constructor
  · exact supIdxFold_eq info sup _ 0 src hsub
  · intro i ci sid hget hci
    have h := claimsOfSupportAux_mem info sup
      (sup.grounding_chunk_indices.getD []) 0 i ci sid hget hci
    rw [Nat.zero_add] at h
    exact h

/-- C4: chunk indices are scoped per event.  For a processed event, every
entry of the freshly built chunk-index map points at a chunk of this very
event (at that index, through its own web URL); an event with an empty
chunk list leaves the state unchanged even if its supports carry indices;
the claims appended come exactly from this event's map; and chunk indices
that do not resolve in this event's map are skipped (the number of claims a
support produces is the number of its indices that resolve). -/
theorem per_event_chunk_scoping (rs : RunState) (ev : Event) (gm : GroundingMetadata)
    (rs' : RunState) (hinv : RunInv rs) (hmeta : ev.grounding_metadata = some gm)
    (hrun : processEvent rs ev = some rs') :
    (gm.grounding_chunks = [] → rs' = rs) ∧
    (∀ idx sid, (idx, sid) ∈ (chunkFold rs gm.grounding_chunks).2 →
      ∃ c w, (gm.grounding_chunks)[idx]? = some c ∧ c.web = some w ∧
        alookup w.uri (chunkFold rs gm.grounding_chunks).1.url_to_short_id = some sid) ∧
    (gm.grounding_chunks ≠ [] →
      rs'.sources
        = appendClaimsList (chunkFold rs gm.grounding_chunks).1.sources
            (concatMap (claimsOfSupport (chunkFold rs gm.grounding_chunks).2)
              (gm.grounding_supports.getD []))) ∧
    (∀ sup : Support,
      (claimsOfSupport (chunkFold rs gm.grounding_chunks).2 sup).length
        = ((sup.grounding_chunk_indices.getD []).filter
            (fun ci => (alookup ci (chunkFold rs gm.grounding_chunks).2).isSome)).length) := by
  refine ⟨?_, ?_, ?_, ?_⟩
  · intro hc
    simp only [processEvent, hmeta, if_pos hc] at hrun
    exact (Option.some.inj hrun).symm
  · intro idx sid hmem
    obtain ⟨-, -, -, -, e, -, -⟩ :=
      chunkFoldAux_spec gm.grounding_chunks rs [] 0 hinv
        (by intro p hp; simp at hp) (by intro v hv; simp at hv)
    have hcf : chunkFold rs gm.grounding_chunks = chunkFoldAux rs [] 0 gm.grounding_chunks :=
      rfl
    rw [hcf] at hmem ⊢
    rw [e, List.nil_append] at hmem
    obtain ⟨c, w, -, hget, hw, hl⟩ :=
      infoViaAux_mem_origin gm.grounding_chunks 0 (idx, sid) hmem
    refine ⟨c, w, ?_, hw, hl⟩
    simpa using hget
  · intro hc
    obtain ⟨a, -, -, -, -, -, g⟩ :=
      chunkFoldAux_spec gm.grounding_chunks rs [] 0 hinv
        (by intro p hp; simp at hp) (by intro v hv; simp at hv)
    have hsub : ∀ v ∈ (chunkFoldAux rs [] 0 gm.grounding_chunks).2.map Prod.snd,
        v ∈ (chunkFoldAux rs [] 0 gm.grounding_chunks).1.sources.map Prod.fst := by
      intro v hv
      have ha2 : (chunkFoldAux rs [] 0 gm.grounding_chunks).1.url_to_short_id.map Prod.snd
          = (chunkFoldAux rs [] 0 gm.grounding_chunks).1.sources.map Prod.fst := a.2.1
      rw [← ha2]
      exact g v hv
    have hsup := supportsFold_eq _ (gm.grounding_supports.getD []) _ hsub
    simp only [processEvent, hmeta, if_neg hc, chunkFold, hsup] at hrun
    have hrs := Option.some.inj hrun
    rw [← hrs]
    rfl
  · intro sup
    exact claimsOfSupportAux_length _ sup _ 0

/-- The adversarial pre-state of the C5 counterexample: the index maps one
URL to `src-2`, which is also the sole registry key, so the state is
consistent in the claim's sense; but the id counter (index size plus one)
will next produce exactly `src-2` again. -/
def stBad : SessionState :=
  { url_to_short_id := [("u1", "src-2")],
    sources := [("src-2",
      { short_id := "src-2", title := "t", url := "u1", domain := "d",
        supported_claims := [] })],
    research_evaluation := none, final_cited_report := "",
    final_report_with_citations := none }

/-- The single event of the C5 counterexample: one web chunk with a new URL. -/
def evBad : Event :=
  { grounding_metadata := some
      { grounding_chunks := [{ web := some { uri := "u2", title := "t2", domain := "d2" } }],
        grounding_supports := none } }

/-- The state the collector produces from `stBad` on `[evBad]`: both URLs
now map to `src-2` and the registry record for `src-2` was overwritten. -/
def stBadPost : SessionState :=
  { url_to_short_id := [("u1", "src-2"), ("u2", "src-2")],
    sources := [("src-2",
      { short_id := "src-2", title := "t2", url := "u2", domain := "d2",
        supported_claims := [] })],
    research_evaluation := none, final_cited_report := "",
    final_report_with_citations := none }

/-- C5 counterexample: a session state that is consistent exactly in the
claim's sense (every URL maps to a registry key; every registry key is the
short identifier of exactly one URL) from which one run of the collector
produces an inconsistent state: the fresh identifier `src-2` collides with
a pre-existing one, two URLs end up sharing it, and the registry record is
overwritten. -/
theorem consistency_not_preserved :
    ConsistentState stBad.url_to_short_id stBad.sources ∧
    collect_research_sources_callback stBad [evBad] = some stBadPost ∧
    ¬ ConsistentState stBadPost.url_to_short_id stBadPost.sources := by
  refine ⟨⟨?_, ?_⟩, by decide, ?_⟩
  · intro p hp
    obtain rfl : p = ("u1", "src-2") := by simpa [stBad] using hp
    decide
  · intro q hq
    obtain rfl : q = ("src-2",
        { short_id := "src-2", title := "t", url := "u1", domain := "d",
          supported_claims := [] }) := by simpa [stBad] using hq
    refine ⟨"u1", by decide, ?_⟩
    intro y hy
    simp only [stBad, alookup] at hy
    split at hy
    · rename_i h
      exact h.symm
    · simp at hy
  · rintro ⟨-, h2⟩
    obtain ⟨u, -, huniq⟩ := h2 ("src-2",
      { short_id := "src-2", title := "t2", url := "u2", domain := "d2",
        supported_claims := [] }) (by decide)
    have e1 := huniq "u1" (by decide)
    have e2 := huniq "u2" (by decide)
    rw [← e2] at e1
    exact absurd e1 (by decide)

/-- C5 (amended): from a canonical state — one whose index values are
exactly `src-1 .. src-n` in insertion order, matching the registry keys and
record URLs, as the collector itself always produces — every run keeps
`url_to_short_id` and `sources` mutually consistent: every URL maps to a
registry key and every registry key is the short identifier of exactly one
URL. -/
theorem consistency_preserved_from_canonical (st : SessionState) (events : List Event)
    (hinv : InvState st) :
    ∃ st', collect_research_sources_callback st events = some st' ∧
      InvState st' ∧ ConsistentState st'.url_to_short_id st'.sources := by
  obtain ⟨st', h0, hinv', -, -, -, -, -, -⟩ := collect_spec st events hinv
  exact ⟨st', h0, hinv', InvState_consistent hinv'⟩

/-- The registry of the C6 round trip. -/
def reg6 : List (String × SourceRecord) :=
  [("src-1", { short_id := "src-1", title := "T1", url := "u1", domain := "",
               supported_claims := [] }),
   ("src-2", { short_id := "src-2", title := "T2", url := "u2", domain := "",
               supported_claims := [] })]

/-- The input state of the C6 round trip. -/
def st6 : SessionState :=
  { url_to_short_id := [("u1", "src-1"), ("u2", "src-2")], sources := reg6,
    research_evaluation := none,
    final_cited_report := "Claim A<cite source=\"src-1\"/>, claim B<cite source=\"src-2\"/>.",
    final_report_with_citations := none }

/-- C6: on the round-trip input, `citation_replacement_callback` produces
exactly `"Claim A [T1](u1), claim B [T2](u2)."` — no whitespace before the
comma or the period — stores it in `final_report_with_citations`, returns
it as a single text content part, and logs no warning. -/
theorem citation_roundtrip :
    citation_replacement_callback st6
      = ({ st6 with
            final_report_with_citations := some "Claim A [T1](u1), claim B [T2](u2)." },
         { parts := [{ text := "Claim A [T1](u1), claim B [T2](u2)." }] },
         []) := by
  decide

/-- C7: a citation marker whose short identifier is not a key of the
registry is replaced by the empty string and logs exactly one warning
naming the matched tag; processing continues on the remaining text, the
whitespace-before-punctuation normalisation is still applied to the result,
and the (total) callback still stores and returns the processed report. -/
theorem citation_unresolvable_dropped (st : SessionState) (pre cs rest : List Char)
    (sid : String)
    (hreport : st.final_cited_report.toList = pre ++ cs)
    (hpre : ∀ ch ∈ pre, ch ≠ '<')
    (hmatch : matchCite cs = some (sid, rest))
    (hmiss : alookup sid st.sources = none) :
    (citation_replacement_callback st).2.2
      = warnMsg (cs.take (cs.length - rest.length)) :: (citeGo st.sources rest).2 ∧
    (citation_replacement_callback st).1.final_report_with_citations
      = some (String.mk (punctGo [] (pre ++ (citeGo st.sources rest).1))) ∧
    (citation_replacement_callback st).2.1
      = { parts := [{ text := String.mk (punctGo [] (pre ++ (citeGo st.sources rest).1)) }] } := by
  have hgo : citeGo st.sources st.final_cited_report.toList
      = (pre ++ (citeGo st.sources rest).1,
         warnMsg (cs.take (cs.length - rest.length)) :: (citeGo st.sources rest).2) := by
    rw [hreport, citeGo_append_clean st.sources pre cs hpre, citeGo_match_miss hmatch hmiss]
  refine ⟨?_, ?_, ?_⟩ <;> simp only [citation_replacement_callback, hgo]

/-- C8: on every invocation, the escalation checker emits exactly one event:
with the escalate flag set when the `research_evaluation` slot holds a
verdict whose grade is `"pass"`, and a plain event (no escalate flag) when
the slot is absent or the grade is anything else. -/
theorem escalation_rule (name : String) (st : SessionState) :
    ((∃ fb, st.research_evaluation = some fb ∧ fb.grade = "pass") →
      (escalationChecker_run name st).2
        = [{ author := name, actions := { escalate := true } }]) ∧
    ((∀ fb, st.research_evaluation = some fb → fb.grade ≠ "pass") →
      (escalationChecker_run name st).2
        = [{ author := name, actions := { escalate := false } }]) := by
  constructor
  · rintro ⟨fb, hfb, hgrade⟩
    simp only [escalationChecker_run, hfb, if_pos hgrade]
  · intro h
    cases hfb : st.research_evaluation with
    | none => simp only [escalationChecker_run, hfb]
    | some fb =>
      simp only [escalationChecker_run, hfb, if_neg (h fb hfb)]

/-- C9: the escalation checker never writes the session state: for every
input state the state after the invocation is the state before it. -/
theorem escalation_no_state_write (name : String) (st : SessionState) :
    (escalationChecker_run name st).1 = st := by
  cases hfb : st.research_evaluation with
  | none => simp only [escalationChecker_run, hfb]
  | some fb =>
    by_cases h : fb.grade = "pass"
    · simp only [escalationChecker_run, hfb, if_pos h]
    · simp only [escalationChecker_run, hfb, if_neg h]

/-- C10: the collector is not idempotent with respect to supported claims:
re-running it on the same events from the state the first run produced
leaves `url_to_short_id` and the registry keys unchanged but appends every
grounding-support claim entry again, so each record's `supported_claims`
list doubles (running twice is not running once). -/
theorem collect_rerun_not_idempotent (events : List Event) (st1 : SessionState)
    (h1 : collect_research_sources_callback emptyState events = some st1) :
    ∃ st2, collect_research_sources_callback st1 events = some st2 ∧
      st2.url_to_short_id = st1.url_to_short_id ∧
      st2.sources.map Prod.fst = st1.sources.map Prod.fst ∧
      ∀ sid rec1, alookup sid st1.sources = some rec1 →
        ∃ rec2, alookup sid st2.sources = some rec2 ∧
          rec2.supported_claims = rec1.supported_claims ++ rec1.supported_claims ∧
          rec2.supported_claims.length = 2 * rec1.supported_claims.length := by
  obtain ⟨st1', h0, hinv1, hu1, hcl1, -, -, -, -⟩ := collect_spec emptyState events InvState_empty
  rw [h0] at h1
  have he : st1' = st1 := Option.some.inj h1
  rw [he] at hinv1 hu1 hcl1
  obtain ⟨st2, g0, hinv2, hu2, hcl2, hsome2, -, -, -⟩ := collect_spec st1 events hinv1
  have hufix : st2.url_to_short_id = st1.url_to_short_id := by
    rw [hu2]
    refine assignAll_fix _ _ ?_
    intro u hu
    have hsome : (alookup u st1.url_to_short_id).isSome := by
      rw [hu1]
      exact assignAll_isSome _ _ u hu
    exact alookup_isSome_iff.mp hsome
  refine ⟨st2, g0, hufix, ?_, ?_⟩
  · have i2 : st2.url_to_short_id.map Prod.snd = st2.sources.map Prod.fst := hinv2.2.1
    have i1 : st1.url_to_short_id.map Prod.snd = st1.sources.map Prod.fst := hinv1.2.1
    rw [← i2, hufix, i1]
  · intro sid rec1 hrec1
    have hs := hsome2 sid rec1 hrec1
    obtain ⟨rec2, hrec2⟩ := Option.isSome_iff_exists.mp hs
    have e2 := hcl2 sid rec2 hrec2
    simp only [hrec1] at e2
    have e1 := hcl1 sid rec1 hrec1
    have hnone : alookup sid emptyState.sources = none := rfl
    simp only [hnone, List.nil_append] at e1
    rw [hufix] at e2
    rw [← e1] at e2
    refine ⟨rec2, hrec2, e2, ?_⟩
    rw [e2, List.length_append]
    omega

/-! ## Concrete witnesses -/

/-- A one-chunk, one-support event used by the witnesses. -/
def gmW : GroundingMetadata :=
  { grounding_chunks := [{ web := some { uri := "u", title := "t", domain := "d" } }],
    grounding_supports := some
      [{ confidence_scores := none, grounding_chunk_indices := some [0],
         segment := some { text := "seg" } }] }

/-- The witness event wrapping `gmW`. -/
def evW : Event := { grounding_metadata := some gmW }

/-- The state one collector run produces from the empty state on `[evW]`. -/
def st1W : SessionState :=
  { url_to_short_id := [("u", "src-1")],
    sources := [("src-1",
      { short_id := "src-1", title := "t", url := "u", domain := "d",
        supported_claims := [{ text_segment := "seg", confidence := 1 / 2 }] })],
    research_evaluation := none, final_cited_report := "",
    final_report_with_citations := none }

theorem collect_dedups_urls_witness :
    ∃ st', collect_research_sources_callback emptyState [evW, evW] = some st' ∧
      (st'.sources.filter (fun q => q.2.url = "u")).length = 1 ∧
      ∀ pre e post, [evW, evW] = pre ++ e :: post →
        "u" ∉ concatMap eventUrls pre → "u" ∈ eventUrls e →
        ∃ stF, collect_research_sources_callback emptyState (pre ++ [e]) = some stF ∧
          (alookup "u" stF.url_to_short_id).isSome ∧
          alookup "u" st'.url_to_short_id = alookup "u" stF.url_to_short_id :=
  collect_dedups_urls [evW, evW] "u" (by decide)

theorem collect_ids_sequential_witness :
    ∃ st', collect_research_sources_callback emptyState [evW] = some st' ∧
      st'.url_to_short_id
        = emptyState.url_to_short_id
          ++ withIdsFrom (emptyState.url_to_short_id.length + 1)
            (dedupFirstAux (emptyState.url_to_short_id.map Prod.fst)
              (concatMap eventUrls [evW])) ∧
      (∀ u s, alookup u emptyState.url_to_short_id = some s →
        alookup u st'.url_to_short_id = some s) ∧
      (emptyState = emptyState → st'.url_to_short_id = withIdsFrom 1 (firstSeenUrls [evW])) :=
  collect_ids_sequential emptyState [evW] InvState_empty

/-- The witness chunk-index map and registry for C3. -/
def infoW : List (Nat × String) := [(0, "src-1")]

/-- The witness registry for C3. -/
def srcW : List (String × SourceRecord) :=
  [("src-1", { short_id := "src-1", title := "t", url := "u", domain := "d",
               supported_claims := [] })]

/-- The witness support annotation for C3. -/
def supW : Support :=
  { confidence_scores := none, grounding_chunk_indices := some [0],
    segment := some { text := "seg" } }

theorem support_confidence_rule_witness :
    supportStep infoW srcW supW = some (appendClaimsList srcW (claimsOfSupport infoW supW)) :=
  (support_confidence_rule infoW srcW supW (by decide)).1

/-- The witness initial run state for C4 (empty, counter 1). -/
def rs0 : RunState := { url_to_short_id := [], sources := [], id_counter := 1 }

/-- The run state `processEvent rs0 evW` produces. -/
def rsW : RunState :=
  { url_to_short_id := [("u", "src-1")],
    sources := [("src-1",
      { short_id := "src-1", title := "t", url := "u", domain := "d",
        supported_claims := [{ text_segment := "seg", confidence := 1 / 2 }] })],
    id_counter := 2 }

theorem per_event_chunk_scoping_witness :
    rsW.sources
      = appendClaimsList (chunkFold rs0 gmW.grounding_chunks).1.sources
          (concatMap (claimsOfSupport (chunkFold rs0 gmW.grounding_chunks).2)
            (gmW.grounding_supports.getD [])) :=
  (per_event_chunk_scoping rs0 evW gmW rsW ⟨rfl, rfl, rfl, List.nodup_nil, rfl⟩ rfl
    rfl).2.2.1 (by decide)

theorem consistency_preserved_witness :
    ∃ st', collect_research_sources_callback emptyState [evW] = some st' ∧
      InvState st' ∧ ConsistentState st'.url_to_short_id st'.sources :=
  consistency_preserved_from_canonical emptyState [evW] InvState_empty

/-- The input state of the C7 witness (marker for the absent `src-99`). -/
def st7 : SessionState :=
  { url_to_short_id := [("u1", "src-1"), ("u2", "src-2")], sources := reg6,
    research_evaluation := none,
    final_cited_report := "A<cite source=\"src-99\"/> .",
    final_report_with_citations := none }

/-- The C7 witness text split: one clean character before the marker. -/
def pre7 : List Char := [ 'A' ]

/-- The marker-headed remainder of the C7 witness report. -/
def cs7 : List Char := ("<cite source=\"src-99\"/> .".toList)

/-- What remains after the C7 witness marker. -/
def rest7 : List Char := [ ' ', '.' ]

theorem citation_unresolvable_dropped_witness :
    (citation_replacement_callback st7).2.2
      = warnMsg (cs7.take (cs7.length - rest7.length)) :: (citeGo st7.sources rest7).2 :=
  (citation_unresolvable_dropped st7 pre7 cs7 rest7 "src-99"
    (by decide) (by decide) (by decide) (by decide)).1

/-- The passing verdict of the C8 witness. -/
def fbPass : Feedback := { grade := "pass", comment := "ok", follow_up_queries := none }

/-- The witness state whose verdict grade is `"pass"`. -/
def stPass : SessionState :=
  { url_to_short_id := [], sources := [], research_evaluation := some fbPass,
    final_cited_report := "", final_report_with_citations := none }

theorem escalation_rule_witness :
    (escalationChecker_run "checker" stPass).2
      = [{ author := "checker", actions := { escalate := true } }] :=
  (escalation_rule "checker" stPass).1 ⟨fbPass, rfl, rfl⟩

theorem collect_rerun_witness :
    ∃ st2, collect_research_sources_callback st1W [evW] = some st2 ∧
      st2.url_to_short_id = st1W.url_to_short_id ∧
      st2.sources.map Prod.fst = st1W.sources.map Prod.fst ∧
      ∀ sid rec1, alookup sid st1W.sources = some rec1 →
        ∃ rec2, alookup sid st2.sources = some rec2 ∧
          rec2.supported_claims = rec1.supported_claims ++ rec1.supported_claims ∧
          rec2.supported_claims.length = 2 * rec1.supported_claims.length :=
  collect_rerun_not_idempotent [evW] st1W rfl

end Agent
